import Mathlib

/-!
Verification of the semantic-analysis engine of the GN language server.

The Rust sources are shallowly embedded: association lists stand for
`HashMap`, byte spans are pairs of naturals, and the workspace analyzer's
recursive import collection is given explicit fuel (`none` = fuel ran out).
The parser is an external collaborator of the engine; its node shapes are
taken from the parser adapter contract.
-/

set_option maxRecDepth 10000

namespace GN

/-- Byte span of a syntax node: start offset and end offset. -/
structure Span where
  startPos : Nat
  endPos : Nat
deriving DecidableEq, Repr

/-! ### Association-list maps (model of `HashMap`) -/

/-- Lookup in an association list (model of `HashMap::get`). -/
def mfind (m : List (String × α)) (k : String) : Option α :=
  match m with
  | [] => none
  | (k2, v) :: rest => if k2 = k then some v else mfind rest k

/-- Insert-or-replace (model of `HashMap::insert`). -/
def minsert (m : List (String × α)) (k : String) (v : α) : List (String × α) :=
  match m with
  | [] => [(k, v)]
  | (k2, v2) :: rest => if k2 = k then (k, v) :: rest else (k2, v2) :: minsert rest k v

/-- Model of `HashMap::entry(k).or_insert_with(init)` followed by an in-place
mutation `f` of the entry value. -/
def mupdate (m : List (String × α)) (k : String) (init : α) (f : α → α) :
    List (String × α) :=
  match m with
  | [] => [(k, f init)]
  | (k2, v2) :: rest => if k2 = k then (k, f v2) :: rest else (k2, v2) :: mupdate rest k init f

/-- Model of `HashMap::extend`: insert every binding of `new` into `m`. -/
def mextend (m new : List (String × α)) : List (String × α) :=
  new.foldl (fun acc kv => minsert acc kv.1 kv.2) m

/-- Left-biased choice on options. -/
def oor (a b : Option α) : Option α :=
  match a with
  | some v => some v
  | none => b

@[simp] theorem oor_some_eq (v : α) (b : Option α) : oor (some v) b = some v := rfl

@[simp] theorem oor_none (b : Option α) : oor none b = b := rfl

@[simp] theorem oor_none_right (a : Option α) : oor a none = a := by
  cases a <;> rfl

@[simp] theorem mfind_nil (k : String) : mfind ([] : List (String × α)) k = none := rfl

theorem mfind_cons (k2 : String) (v : α) (rest : List (String × α)) (k : String) :
    mfind ((k2, v) :: rest) k = if k2 = k then some v else mfind rest k := rfl

theorem mfind_append (m1 m2 : List (String × α)) (k : String) :
    mfind (m1 ++ m2) k = oor (mfind m1 k) (mfind m2 k) := by
  induction m1 with
  | nil => simp [mfind]
  | cons hd tl ih =>
    obtain ⟨k2, v⟩ := hd
    by_cases h : k2 = k <;> simp [mfind, h, ih]

theorem mfind_minsert_self (m : List (String × α)) (k : String) (v : α) :
    mfind (minsert m k v) k = some v := by
  induction m with
  | nil => simp [minsert, mfind]
  | cons hd tl ih =>
    obtain ⟨k2, v2⟩ := hd
    by_cases h : k2 = k <;> simp [minsert, mfind, h, ih]

theorem mfind_minsert_ne (m : List (String × α)) (k k2 : String) (v : α) (h : k ≠ k2) :
    mfind (minsert m k v) k2 = mfind m k2 := by
  induction m with
  | nil => simp [minsert, mfind, h]
  | cons hd tl ih =>
    obtain ⟨k3, v3⟩ := hd
    by_cases h3 : k3 = k
    · subst h3
      simp [minsert, mfind, h]
    · simp only [minsert, if_neg h3]
      by_cases h4 : k3 = k2 <;> simp [mfind, h4, ih]

theorem mfind_mextend (m new : List (String × α)) (k : String) :
    mfind (mextend m new) k = oor (mfind new.reverse k) (mfind m k) := by
  induction new generalizing m with
  | nil => simp [mextend, mfind]
  | cons hd tl ih =>
    obtain ⟨k2, v2⟩ := hd
    show mfind (mextend (minsert m k2 v2) tl) k = _
    rw [ih]
    simp only [List.reverse_cons, mfind_append]
    by_cases h : k2 = k
    · subst h
      simp [mfind, mfind_minsert_self]
      cases mfind tl.reverse k2 <;> simp [oor]
    · simp [mfind, h, mfind_minsert_ne m k2 k v2 h]

/-! ### Simple literals and export filtering (src/common/utils.rs) -/

/-- Translation of `parse_simple_literal` (src/common/utils.rs):
a string parses as a simple literal iff it contains no backslash and no
dollar character, in which case it is returned unchanged. -/
def parse_simple_literal (s : String) : Option String :=
  if s.data.any (fun c => c == '\\' || c == '$') then none else some s

/-- `name.starts_with("_")`, modelled on the string's character list
(`String.startsWith` itself does not reduce in the kernel). -/
def starts_with_underscore (name : String) : Bool :=
  match name.data with
  | '_' :: _ => true
  | _ => false

/-- Translation of `is_exported` (src/common/utils.rs): a name is exported
iff it does not begin with an underscore. -/
def is_exported (name : String) : Bool :=
  !(starts_with_underscore name)

/-- C10: `parse_simple_literal s` returns `some s` unchanged iff `s` contains
neither a backslash nor a dollar character, and `none` otherwise. -/
theorem parse_simple_literal_characterization (s : String) :
    (parse_simple_literal s = some s ↔ ('\\' ∉ s.data ∧ '$' ∉ s.data))
    ∧ (parse_simple_literal s = none ↔ ('\\' ∈ s.data ∨ '$' ∈ s.data)) := by
  unfold parse_simple_literal
  by_cases h : s.data.any (fun c => c == '\\' || c == '$')
  · rw [List.any_eq_true] at h
    obtain ⟨c, hc, hcp⟩ := h
    have : c = '\\' ∨ c = '$' := by
      rcases Bool.or_eq_true_iff.mp hcp with h1 | h1
      · exact Or.inl (by exact_mod_cast beq_iff_eq.mp h1)
      · exact Or.inr (by exact_mod_cast beq_iff_eq.mp h1)
    constructor
    · constructor
      · intro habs
        rw [if_pos] at habs
        · exact absurd habs (by simp)
        · rw [List.any_eq_true]
          exact ⟨c, hc, hcp⟩
      · intro ⟨h1, h2⟩
        rcases this with rfl | rfl
        · exact absurd hc h1
        · exact absurd hc h2
    · constructor
      · intro _
        rcases this with rfl | rfl
        · exact Or.inl hc
        · exact Or.inr hc
      · intro _
        rw [if_pos]
        rw [List.any_eq_true]
        exact ⟨c, hc, hcp⟩
  · rw [if_neg h]
    rw [List.any_eq_true] at h
    push_neg at h
    constructor
    · constructor
      · intro _
        constructor
        · intro hmem
          have := h '\\' hmem
          simp at this
        · intro hmem
          have := h '$' hmem
          simp at this
      · intro _
        rfl
    · constructor
      · intro habs
        exact absurd habs (by simp)
      · intro hmem
        rcases hmem with hmem | hmem
        · have := h '\\' hmem
          simp at this
        · have := h '$' hmem
          simp at this

/-! ### Import collection (src/analyzer/mod.rs, `collect_imports`) -/

/-- State of `collect_imports`: the accumulated list of analyzed files and the
visited set (both keyed on path). -/
abbrev ImportState := List String × List String

mutual

/-- Translation of `WorkspaceAnalyzer::collect_imports` (src/analyzer/mod.rs).
The import graph is a function from a path to the `children` of its exports.
The recursion is given explicit fuel; `none` means the fuel ran out. -/
def collect_imports (children : String → List String) :
    Nat → String → ImportState → Option ImportState
  | 0, _, _ => none
  | fuel + 1, path, (files, visited) =>
    if path ∈ visited then some (files, visited)
    else collect_imports_list children fuel (children path) (files ++ [path], path :: visited)

/-- The `for child_path in ...` loop inside `collect_imports`. -/
def collect_imports_list (children : String → List String) :
    Nat → List String → ImportState → Option ImportState
  | _, [], st => some st
  | fuel, c :: cs, st =>
    match collect_imports children fuel c st with
    | none => none
    | some st2 => collect_imports_list children fuel cs st2

end

/-- Visited-set monotonicity and the files invariant of `collect_imports`:
the visited set only grows, every pushed file was freshly visited, and the
files list stays duplicate-free. -/
theorem collect_imports_invariant (children : String → List String) :
    ∀ fuel : Nat,
      (∀ path files visited files2 visited2,
        collect_imports children fuel path (files, visited) = some (files2, visited2) →
        visited ⊆ visited2 ∧
        (files.Nodup → (∀ p ∈ files, p ∈ visited) →
          files2.Nodup ∧ ∀ p ∈ files2, p ∈ visited2))
      ∧ (∀ cs files visited files2 visited2,
        collect_imports_list children fuel cs (files, visited) = some (files2, visited2) →
        visited ⊆ visited2 ∧
        (files.Nodup → (∀ p ∈ files, p ∈ visited) →
          files2.Nodup ∧ ∀ p ∈ files2, p ∈ visited2)) := by
  intro fuel
  induction fuel with
  | zero =>
    constructor
    · intro path files visited files2 visited2 h
      exact absurd h (by simp [collect_imports])
    · intro cs files visited files2 visited2 h
      cases cs with
      | nil =>
        simp only [collect_imports_list, Option.some.injEq, Prod.mk.injEq] at h
        obtain ⟨rfl, rfl⟩ := h
        exact ⟨fun _ hp => hp, fun h1 h2 => ⟨h1, h2⟩⟩
      | cons c cs =>
        simp [collect_imports_list, collect_imports] at h
  | succ fuel ih =>
    have hone : ∀ path files visited files2 visited2,
        collect_imports children (fuel + 1) path (files, visited) = some (files2, visited2) →
        visited ⊆ visited2 ∧
        (files.Nodup → (∀ p ∈ files, p ∈ visited) →
          files2.Nodup ∧ ∀ p ∈ files2, p ∈ visited2) := by
      intro path files visited files2 visited2 h
      rw [collect_imports] at h
      by_cases hv : path ∈ visited
      · rw [if_pos hv] at h
        obtain ⟨rfl, rfl⟩ := by exact_mod_cast Option.some.inj h
        exact ⟨fun _ hp => hp, fun h1 h2 => ⟨h1, h2⟩⟩
      · rw [if_neg hv] at h
        obtain ⟨hsub, hinv⟩ := ih.2 (children path) _ _ _ _ h
        refine ⟨fun p hp => hsub (List.mem_cons_of_mem _ hp), ?_⟩
        intro h1 h2
        refine hinv ?_ ?_
        · rw [List.nodup_append]
          refine ⟨h1, List.nodup_singleton _, ?_⟩
          intro p hp hq
          rw [List.mem_singleton] at hq
          subst hq
          exact hv (h2 p hp)
        · intro p hp
          rw [List.mem_append, List.mem_singleton] at hp
          rcases hp with hp | rfl
          · exact List.mem_cons_of_mem _ (h2 p hp)
          · exact List.mem_cons_self _ _
    refine ⟨hone, ?_⟩
    intro cs
    induction cs with
    | nil =>
      intro files visited files2 visited2 h
      simp only [collect_imports_list, Option.some.injEq, Prod.mk.injEq] at h
      obtain ⟨rfl, rfl⟩ := h
      exact ⟨fun _ hp => hp, fun h1 h2 => ⟨h1, h2⟩⟩
    | cons c cs ihc =>
      intro files visited files2 visited2 h
      rw [collect_imports_list] at h
      cases hcall : collect_imports children (fuel + 1) c (files, visited) with
      | none => rw [hcall] at h; exact absurd h (by simp)
      | some st2 =>
        rw [hcall] at h
        obtain ⟨files3, visited3⟩ := st2
        obtain ⟨hsub3, hinv3⟩ := hone c _ _ _ _ hcall
        obtain ⟨hsub2, hinv2⟩ := ihc _ _ _ _ h
        refine ⟨fun p hp => hsub2 (hsub3 hp), ?_⟩
        intro h1 h2
        obtain ⟨h3, h4⟩ := hinv3 h1 h2
        exact hinv2 h3 h4

/-- Number of universe paths not yet visited: the termination measure. -/
def unvisited_count (univ visited : List String) : Nat :=
  (univ.filter (fun p => decide (p ∉ visited))).length

theorem unvisited_count_mono (univ : List String) {v1 v2 : List String} (h : v1 ⊆ v2) :
    unvisited_count univ v2 ≤ unvisited_count univ v1 := by
  unfold unvisited_count
  refine List.Sublist.length_le (List.monotone_filter_right univ ?_)
  intro a ha
  simp only [decide_eq_true_eq] at ha ⊢
  exact fun hx => ha (h hx)

theorem unvisited_count_cons_le (tl visited : List String) (path : String) :
    (tl.filter (fun p => decide (p ∉ path :: visited))).length
      ≤ (tl.filter (fun p => decide (p ∉ visited))).length := by
  refine List.Sublist.length_le (List.monotone_filter_right tl ?_)
  intro a ha
  simp only [decide_eq_true_eq, List.mem_cons] at ha ⊢
  exact fun hx => ha (Or.inr hx)

theorem unvisited_count_insert (univ visited : List String) (path : String)
    (hmem : path ∈ univ) (hnv : path ∉ visited) :
    unvisited_count univ (path :: visited) < unvisited_count univ visited := by
  unfold unvisited_count
  induction univ with
  | nil => simp at hmem
  | cons hd tl ihu =>
    rw [List.mem_cons] at hmem
    rw [List.filter_cons, List.filter_cons]
    by_cases hh : hd = path
    · subst hh
      have hL : (decide (hd ∉ hd :: visited)) = false := by simp
      have hR : (decide (hd ∉ visited)) = true := by simp [hnv]
      rw [hL, hR]
      simp only [Bool.false_eq_true, if_false, if_true, List.length_cons]
      have := unvisited_count_cons_le tl visited hd
      omega
    · have hmem2 : path ∈ tl := by
        rcases hmem with heq | hmem
        · exact absurd heq.symm hh
        · exact hmem
      have step := ihu hmem2
      by_cases hv : hd ∈ visited
      · have hL : decide (hd ∉ path :: visited) = false := by
          simp [List.mem_cons, hv]
        have hR : decide (hd ∉ visited) = false := by simp [hv]
        rw [hL, hR]
        simpa using step
      · have hL : decide (hd ∉ path :: visited) = true := by
          simp [List.mem_cons, hh, hv]
        have hR : decide (hd ∉ visited) = true := by simp [hv]
        rw [hL, hR]
        simp only [if_true, List.length_cons]
        omega

/-- If the fuel exceeds the number of unvisited universe paths, the collection
completes (does not run out of fuel). The universe must be closed under
`children` and contain the starting path. -/
theorem collect_imports_sufficient (children : String → List String) (univ : List String)
    (hclosed : ∀ p ∈ univ, ∀ c ∈ children p, c ∈ univ) :
    ∀ fuel : Nat,
      (∀ path files visited, path ∈ univ →
        unvisited_count univ visited < fuel →
        (collect_imports children fuel path (files, visited)).isSome)
      ∧ (∀ cs files visited, (∀ c ∈ cs, c ∈ univ) →
        unvisited_count univ visited < fuel →
        (collect_imports_list children fuel cs (files, visited)).isSome) := by
  intro fuel
  induction fuel with
  | zero =>
    constructor
    · intro path files visited _ hcount
      omega
    · intro cs files visited _ hcount
      omega
  | succ fuel ih =>
    have hone : ∀ path files visited, path ∈ univ →
        unvisited_count univ visited < fuel + 1 →
        (collect_imports children (fuel + 1) path (files, visited)).isSome := by
      intro path files visited hmem hcount
      rw [collect_imports]
      by_cases hv : path ∈ visited
      · simp [hv]
      · rw [if_neg hv]
        apply ih.2 (children path) _ _ (hclosed path hmem)
        have := unvisited_count_insert univ visited path hmem hv
        omega
    refine ⟨hone, ?_⟩
    intro cs
    induction cs with
    | nil =>
      intro files visited _ _
      simp [collect_imports_list]
    | cons c cs ihc =>
      intro files visited hcs hcount
      rw [collect_imports_list]
      cases hcall : collect_imports children (fuel + 1) c (files, visited) with
      | none =>
        have := hone c files visited (hcs c (List.mem_cons_self _ _)) hcount
        rw [hcall] at this
        exact absurd this (by simp)
      | some st2 =>
        obtain ⟨files3, visited3⟩ := st2
        have hsub := ((collect_imports_invariant children (fuel + 1)).1 c _ _ _ _ hcall).1
        apply ihc _ _ (fun x hx => hcs x (List.mem_cons_of_mem _ hx))
        have := unvisited_count_mono univ hsub
        omega

/-- C4: for every import graph whose reachable paths lie in a finite universe
(cycles allowed), environment assembly via `collect_imports` terminates — fuel
exceeding the universe size is never exhausted — and each distinct file path
is pushed (analyzed) at most once, thanks to the visited set keyed on path. -/
theorem collect_imports_terminates_and_visits_once
    (children : String → List String) (univ : List String) (path : String) (fuel : Nat)
    (hclosed : ∀ p ∈ univ, ∀ c ∈ children p, c ∈ univ)
    (hpath : path ∈ univ) (hfuel : univ.length < fuel) :
    (collect_imports children fuel path ([], [])).isSome
    ∧ ∀ files2 visited2,
        collect_imports children fuel path ([], []) = some (files2, visited2) →
        files2.Nodup := by
  have hcount : unvisited_count univ [] = univ.length := by
    unfold unvisited_count
    simp
  constructor
  · apply (collect_imports_sufficient children univ hclosed fuel).1 path [] [] hpath
    omega
  · intro files2 visited2 h
    have := ((collect_imports_invariant children fuel).1 path [] [] files2 visited2 h).2
    exact (this (List.nodup_nil) (by simp)).1

/-- Import graph with a cycle: a.gni imports b.gni and b.gni imports a.gni. -/
def cycle_children : String → List String :=
  fun p => if p = "a.gni" then ["b.gni"] else if p = "b.gni" then ["a.gni"] else []

/-- Witness for C4: the cyclic two-file graph satisfies the hypotheses, and the
assembly over it completes with a duplicate-free file list. -/
theorem collect_imports_terminates_and_visits_once_witness :
    ((∀ p ∈ ["a.gni", "b.gni"], ∀ c ∈ cycle_children p, c ∈ ["a.gni", "b.gni"])
      ∧ "a.gni" ∈ ["a.gni", "b.gni"]
      ∧ (["a.gni", "b.gni"] : List String).length < 3)
    ∧ ((collect_imports cycle_children 3 "a.gni" ([], [])).isSome
      ∧ ∀ files2 visited2,
          collect_imports cycle_children 3 "a.gni" ([], []) = some (files2, visited2) →
          files2.Nodup) :=
  ⟨⟨by decide, by decide, by decide⟩,
    collect_imports_terminates_and_visits_once cycle_children ["a.gni", "b.gni"] "a.gni" 3
      (by decide) (by decide) (by decide)⟩

/-! ### Parser AST

The parser is an external collaborator of the engine; these node shapes
follow the parser adapter contract (spec section 4.2): blocks of statements
(assignment / call / condition / parse-error), calls with a function name,
argument expressions and an optional body block, and the expression grammar.
Spans do not carry the document text here, so nodes that the analyzer
slices text from carry the sliced string next to the span. Comments and
assignment operators are not modelled (no analyzed property depends on
them). -/

structure Identifier where
  name : String
  span : Span

mutual

inductive GExpr where
  | primary (p : PrimaryExpr) (span : Span)
  | unary (e : GExpr) (span : Span)
  | binary (lhs rhs : GExpr) (span : Span)

inductive PrimaryExpr where
  | identifier (i : Identifier)
  | integer (span : Span)
  | strLit (rawValue : String) (span : Span)
  | listLit (values : List GExpr) (span : Span)
  | blockExpr (b : Block)
  | callExpr (c : Call)
  | arrayAccess (a : ArrayAccess)
  | scopeAccess (s : ScopeAccess)
  | parenExpr (e : GExpr) (span : Span)
  | error (span : Span)

inductive ArrayAccess where
  | mk (array : Identifier) (index : GExpr) (span : Span)

inductive ScopeAccess where
  | mk (scope member : Identifier) (span : Span)

inductive LValue where
  | identifier (i : Identifier)
  | arrayAccess (a : ArrayAccess)
  | scopeAccess (s : ScopeAccess)

inductive Assignment where
  | mk (lvalue : LValue) (rvalue : GExpr) (span : Span)

inductive Call where
  | mk (function : Identifier) (args : List GExpr) (block : Option Block) (span : Span)

inductive Condition where
  | mk (condition : GExpr) (thenBlock : Block)
      (elseBlock : Option (Condition ⊕ Block)) (span : Span)

inductive Statement where
  | assignment (a : Assignment)
  | call (c : Call)
  | condition (c : Condition)
  | error (span : Span)

inductive Block where
  | mk (statements : List Statement) (span : Span)

end

def Call.function : Call → Identifier
  | .mk f _ _ _ => f

def Call.args : Call → List GExpr
  | .mk _ a _ _ => a

def Call.block : Call → Option Block
  | .mk _ _ b _ => b

def Call.span : Call → Span
  | .mk _ _ _ s => s

def Block.statements : Block → List Statement
  | .mk l _ => l

def Block.span : Block → Span
  | .mk _ s => s

def Assignment.lvalue : Assignment → LValue
  | .mk l _ _ => l

def Assignment.rvalue : Assignment → GExpr
  | .mk _ r _ => r

def Assignment.span : Assignment → Span
  | .mk _ _ s => s

def Condition.span : Condition → Span
  | .mk _ _ _ s => s

def ArrayAccess.array : ArrayAccess → Identifier
  | .mk a _ _ => a

def ScopeAccess.scope : ScopeAccess → Identifier
  | .mk s _ _ => s

def Statement.span : Statement → Span
  | .assignment a => a.span
  | .call c => c.span
  | .condition c => c.span
  | .error s => s

/-- Parser helper `Call::only_arg`: the argument when there is exactly one. -/
def Call.onlyArg (c : Call) : Option GExpr :=
  match c.args with
  | [a] => some a
  | _ => none

/-- Parser helper `Expr::as_primary_identifier`. -/
def GExpr.asPrimaryIdentifier : GExpr → Option Identifier
  | .primary (.identifier i) _ => some i
  | _ => none

/-- Parser helper `Expr::as_primary_string`: the raw value and span of a
string-literal expression. -/
def GExpr.asPrimaryString : GExpr → Option (String × Span)
  | .primary (.strLit raw sp) _ => some (raw, sp)
  | _ => none

/-- Parser helper `Expr::as_primary_list`: the element list of a list
literal. -/
def GExpr.asPrimaryList : GExpr → Option (List GExpr)
  | .primary (.listLit values _) _ => some values
  | _ => none

/-- Parser helper `Expr::as_simple_string`: a string literal whose raw value
parses as a simple literal. -/
def GExpr.asSimpleString (e : GExpr) : Option String :=
  match e.asPrimaryString with
  | some (raw, _) => parse_simple_literal raw
  | none => none

/-- Parser helper `Expr::as_simple_string_list`: all elements of a list
literal must be simple strings, otherwise `none`. -/
def GExpr.asSimpleStringList (e : GExpr) : Option (List String) :=
  match e.asPrimaryList with
  | none => none
  | some values => values.mapM GExpr.asSimpleString

/-! ### Semantic tree (src/analyzer/data.rs) -/

mutual

inductive AnalyzedStatement where
  | assignment (a : AnalyzedAssignment)
  | conditions (c : AnalyzedCondition)
  | declareArgs (d : AnalyzedDeclareArgs)
  | foreach (f : AnalyzedForeach)
  | forwardVariablesFrom (f : AnalyzedForwardVariablesFrom)
  | importStmt (i : AnalyzedImport)
  | target (t : AnalyzedTarget)
  | template (t : AnalyzedTemplate)
  | builtinCall (b : AnalyzedBuiltinCall)
  | error (span : Span)

inductive AnalyzedBlock where
  | mk (statements : List AnalyzedStatement) (span : Span)

inductive AnalyzedAssignment where
  | mk (assignment : Assignment) (primaryVariable : Identifier)
      (exprScopes : List AnalyzedBlock)

inductive AnalyzedCondition where
  | mk (condition : Condition) (exprScopes : List AnalyzedBlock)
      (thenBlock : AnalyzedBlock)
      (elseBlock : Option (AnalyzedCondition ⊕ AnalyzedBlock))

inductive AnalyzedDeclareArgs where
  | mk (call : Call) (bodyBlock : AnalyzedBlock)

inductive AnalyzedForeach where
  | mk (call : Call) (loopVariable : Identifier) (loopItems : GExpr)
      (exprScopes : List AnalyzedBlock) (bodyBlock : AnalyzedBlock)

inductive AnalyzedForwardVariablesFrom where
  | mk (call : Call) (includes : GExpr) (exprScopes : List AnalyzedBlock)

inductive AnalyzedImport where
  | mk (call : Call) (name : String) (path : String)

inductive AnalyzedTarget where
  | mk (call : Call) (name : GExpr) (exprScopes : List AnalyzedBlock)
      (bodyBlock : AnalyzedBlock)

inductive AnalyzedTemplate where
  | mk (call : Call) (name : GExpr) (exprScopes : List AnalyzedBlock)
      (bodyBlock : AnalyzedBlock)

inductive AnalyzedBuiltinCall where
  | mk (call : Call) (exprScopes : List AnalyzedBlock)
      (bodyBlock : Option AnalyzedBlock)

end

def AnalyzedBlock.statements : AnalyzedBlock → List AnalyzedStatement
  | .mk l _ => l

def AnalyzedBlock.span : AnalyzedBlock → Span
  | .mk _ s => s

/-- `AnalyzedStatement::span` (src/analyzer/data.rs). -/
def AnalyzedStatement.span : AnalyzedStatement → Span
  | .assignment (.mk a _ _) => a.span
  | .conditions (.mk c _ _ _) => c.span
  | .declareArgs (.mk call _) => call.span
  | .foreach (.mk call _ _ _ _) => call.span
  | .forwardVariablesFrom (.mk call _ _) => call.span
  | .importStmt (.mk call _ _) => call.span
  | .target (.mk call _ _ _) => call.span
  | .template (.mk call _ _ _) => call.span
  | .builtinCall (.mk call _ _) => call.span
  | .error s => s

/-- `AnalyzedStatement::body_scope` (src/analyzer/data.rs): only targets,
templates and builtin calls open a body scope. -/
def AnalyzedStatement.bodyScope : AnalyzedStatement → Option AnalyzedBlock
  | .target (.mk _ _ _ body) => some body
  | .template (.mk _ _ _ body) => some body
  | .builtinCall (.mk _ _ body) => body
  | _ => none

/-- The expression scopes of a condition chain: each `else if` link
contributes its own expression scopes (src/analyzer/data.rs,
`expr_scopes` for `Conditions`). -/
def AnalyzedCondition.chainExprScopes : AnalyzedCondition → List AnalyzedBlock
  | .mk _ es _ none => es
  | .mk _ es _ (some (.inl next)) => es ++ next.chainExprScopes
  | .mk _ es _ (some (.inr _)) => es

/-- `AnalyzedStatement::expr_scopes` (src/analyzer/data.rs). -/
def AnalyzedStatement.exprScopes : AnalyzedStatement → List AnalyzedBlock
  | .assignment (.mk _ _ es) => es
  | .conditions c => c.chainExprScopes
  | .foreach (.mk _ _ _ es _) => es
  | .forwardVariablesFrom (.mk _ _ es) => es
  | .target (.mk _ _ es _) => es
  | .template (.mk _ _ es _) => es
  | .builtinCall (.mk _ es _) => es
  | .declareArgs _ => []
  | .importStmt _ => []
  | .error _ => []

/-- `AnalyzedStatement::subscopes`: body scope then expression scopes. -/
def AnalyzedStatement.subscopes (s : AnalyzedStatement) : List AnalyzedBlock :=
  s.bodyScope.toList ++ s.exprScopes

/-! ### Per-file analyzer (src/analyzer/mod.rs, `analyze_block` etc.)

`resolve` abstracts `WorkspaceContext::resolve_path` applied at the current
file's directory. -/

@[simp] def DECLARE_ARGS : String := "declare_args"

@[simp] def FOREACH : String := "foreach"

@[simp] def FORWARD_VARIABLES_FROM : String := "forward_variables_from"

@[simp] def IMPORT : String := "import"

@[simp] def SET_DEFAULTS : String := "set_defaults"

@[simp] def TEMPLATE : String := "template"

mutual

/-- Translation of `WorkspaceAnalyzer::analyze_block`. -/
def analyze_block (resolve : String → String) (b : Block) : AnalyzedBlock :=
  match b with
  | .mk statements span => .mk (analyze_statements resolve statements) span
termination_by sizeOf b
decreasing_by all_goals (simp_wf <;> omega)

def analyze_statements (resolve : String → String) :
    List Statement → List AnalyzedStatement
  | [] => []
  | s :: rest =>
    match s with
    | .assignment a =>
      match a with
      | .mk lvalue rvalue span =>
        let idScopes : Identifier × List AnalyzedBlock :=
          match lvalue with
          | .identifier i => (i, [])
          | .arrayAccess (.mk array index _) => (array, analyze_expr resolve index)
          | .scopeAccess (.mk scope _ _) => (scope, [])
        .assignment (.mk (.mk lvalue rvalue span) idScopes.1
            (idScopes.2 ++ analyze_expr resolve rvalue))
          :: analyze_statements resolve rest
    | .call c => analyze_call resolve c :: analyze_statements resolve rest
    | .condition c =>
      .conditions (analyze_condition resolve c) :: analyze_statements resolve rest
    | .error _ => analyze_statements resolve rest
termination_by l => sizeOf l
decreasing_by all_goals (simp_wf <;> omega)

/-- Translation of `WorkspaceAnalyzer::analyze_call`: statement
classification by function name, argument count and body presence. -/
def analyze_call (resolve : String → String) (c : Call) : AnalyzedStatement :=
  match c with
  | .mk fn args blockOpt span =>
    let c2 : Call := .mk fn args blockOpt span
    match blockOpt with
    | some b =>
      let body := analyze_block resolve b
      if fn.name = DECLARE_ARGS then
        .declareArgs (.mk c2 body)
      else if fn.name = FOREACH then
        match hargs : args with
        | [a0, a1] =>
          match a0.asPrimaryIdentifier with
          | some loopVariable =>
            .foreach (.mk c2 loopVariable a1 (analyze_expr resolve a1) body)
          | none =>
            .builtinCall (.mk c2 (analyze_expr_list resolve args) (some body))
        | _ => .builtinCall (.mk c2 (analyze_expr_list resolve args) (some body))
      else if fn.name = TEMPLATE then
        match c2.onlyArg with
        | some name =>
          .template (.mk c2 name (analyze_expr_list resolve args) body)
        | none => .builtinCall (.mk c2 (analyze_expr_list resolve args) (some body))
      else if fn.name ≠ SET_DEFAULTS then
        match c2.onlyArg with
        | some name =>
          .target (.mk c2 name (analyze_expr_list resolve args) body)
        | none => .builtinCall (.mk c2 (analyze_expr_list resolve args) (some body))
      else
        .builtinCall (.mk c2 (analyze_expr_list resolve args) (some body))
    | none =>
      if fn.name = FORWARD_VARIABLES_FROM then
        match hargs : args with
        | [_, a1] =>
          .forwardVariablesFrom (.mk c2 a1 (analyze_expr_list resolve args))
        | [_, a1, _] =>
          .forwardVariablesFrom (.mk c2 a1 (analyze_expr_list resolve args))
        | _ => .builtinCall (.mk c2 (analyze_expr_list resolve args) none)
      else if fn.name = IMPORT then
        match c2.onlyArg with
        | some e =>
          match e.asSimpleString with
          | some name => .importStmt (.mk c2 name (resolve name))
          | none => .builtinCall (.mk c2 (analyze_expr_list resolve args) none)
        | none => .builtinCall (.mk c2 (analyze_expr_list resolve args) none)
      else
        .builtinCall (.mk c2 (analyze_expr_list resolve args) none)
termination_by sizeOf c
decreasing_by all_goals (simp_wf <;> (try simp_all) <;> omega)

/-- Translation of `WorkspaceAnalyzer::analyze_condition`. -/
def analyze_condition (resolve : String → String) (c : Condition) : AnalyzedCondition :=
  match c with
  | .mk cond thenB elseB span =>
    let exprScopes := analyze_expr resolve cond
    let thenBlock := analyze_block resolve thenB
    match elseB with
    | none => .mk (.mk cond thenB elseB span) exprScopes thenBlock none
    | some (.inl next) =>
      .mk (.mk cond thenB elseB span) exprScopes thenBlock
        (some (.inl (analyze_condition resolve next)))
    | some (.inr lastB) =>
      .mk (.mk cond thenB elseB span) exprScopes thenBlock
        (some (.inr (analyze_block resolve lastB)))
termination_by sizeOf c
decreasing_by all_goals (simp_wf <;> omega)

/-- Translation of `WorkspaceAnalyzer::analyze_expr`: inner blocks appearing
inside an expression become expression subscopes. -/
def analyze_expr (resolve : String → String) (e : GExpr) : List AnalyzedBlock :=
  match e with
  | .primary p _ => analyze_primary resolve p
  | .unary inner _ => analyze_expr resolve inner
  | .binary lhs rhs _ => analyze_expr resolve lhs ++ analyze_expr resolve rhs
termination_by sizeOf e
decreasing_by all_goals (simp_wf <;> omega)

def analyze_primary (resolve : String → String) (p : PrimaryExpr) : List AnalyzedBlock :=
  match p with
  | .blockExpr b => [analyze_block resolve b]
  | .callExpr (.mk _ args blockOpt _) =>
    let argBlocks := analyze_expr_list resolve args
    match blockOpt with
    | some b => argBlocks ++ [analyze_block resolve b]
    | none => argBlocks
  | .parenExpr inner _ => analyze_expr resolve inner
  | .listLit values _ => analyze_expr_list resolve values
  | .identifier _ => []
  | .integer _ => []
  | .strLit _ _ => []
  | .arrayAccess _ => []
  | .scopeAccess _ => []
  | .error _ => []
termination_by sizeOf p
decreasing_by all_goals (simp_wf <;> omega)

def analyze_expr_list (resolve : String → String) : List GExpr → List AnalyzedBlock
  | [] => []
  | e :: rest => analyze_expr resolve e ++ analyze_expr_list resolve rest
termination_by l => sizeOf l
decreasing_by all_goals (simp_wf <;> omega)

end

/-! ### Sizes of the semantic tree (termination measures) -/

mutual

def stmt_size : AnalyzedStatement → Nat
  | .assignment (.mk _ _ es) => 1 + block_list_size es
  | .conditions c => 1 + cond_size c
  | .declareArgs (.mk _ body) => 1 + block_size body
  | .foreach (.mk _ _ _ es body) => 1 + block_list_size es + block_size body
  | .forwardVariablesFrom (.mk _ _ es) => 1 + block_list_size es
  | .importStmt _ => 1
  | .target (.mk _ _ es body) => 1 + block_list_size es + block_size body
  | .template (.mk _ _ es body) => 1 + block_list_size es + block_size body
  | .builtinCall (.mk _ es bodyOpt) => 1 + block_list_size es + opt_block_size bodyOpt
  | .error _ => 1

def cond_size : AnalyzedCondition → Nat
  | .mk _ es thenB none => block_list_size es + block_size thenB
  | .mk _ es thenB (some (.inl next)) =>
    block_list_size es + block_size thenB + cond_size next
  | .mk _ es thenB (some (.inr lastB)) =>
    block_list_size es + block_size thenB + block_size lastB

def opt_block_size : Option AnalyzedBlock → Nat
  | none => 0
  | some b => block_size b

def block_size : AnalyzedBlock → Nat
  | .mk stmts _ => 1 + stmt_list_size stmts

def stmt_list_size : List AnalyzedStatement → Nat
  | [] => 0
  | s :: rest => stmt_size s + stmt_list_size rest

def block_list_size : List AnalyzedBlock → Nat
  | [] => 0
  | b :: rest => block_size b + block_list_size rest

end

theorem block_size_pos (b : AnalyzedBlock) : 1 ≤ block_size b := by
  cases b
  rw [block_size]
  omega

theorem stmt_size_pos (s : AnalyzedStatement) : 1 ≤ stmt_size s := by
  cases s <;> rename_i x
    <;> first
      | (cases x <;> rw [stmt_size] <;> omega)
      | (rw [stmt_size]; omega)

theorem stmt_list_size_append (l1 l2 : List AnalyzedStatement) :
    stmt_list_size (l1 ++ l2) = stmt_list_size l1 + stmt_list_size l2 := by
  induction l1 with
  | nil => simp [stmt_list_size]
  | cons s rest ih =>
    rw [List.cons_append]
    rw [show stmt_list_size (s :: (rest ++ l2)) = stmt_size s + stmt_list_size (rest ++ l2)
      from rfl]
    rw [show stmt_list_size (s :: rest) = stmt_size s + stmt_list_size rest from rfl]
    omega

theorem block_list_size_append (l1 l2 : List AnalyzedBlock) :
    block_list_size (l1 ++ l2) = block_list_size l1 + block_list_size l2 := by
  induction l1 with
  | nil => simp [block_list_size]
  | cons b rest ih =>
    rw [List.cons_append]
    rw [show block_list_size (b :: (rest ++ l2)) = block_size b + block_list_size (rest ++ l2)
      from rfl]
    rw [show block_list_size (b :: rest) = block_size b + block_list_size rest from rfl]
    omega

/-- The expression scopes of a condition chain are counted by its size. -/
theorem chain_expr_scopes_size (c : AnalyzedCondition) :
    block_list_size c.chainExprScopes ≤ cond_size c := by
  match c with
  | .mk cnd es thenB none =>
    rw [AnalyzedCondition.chainExprScopes, cond_size]
    omega
  | .mk cnd es thenB (some (.inl next)) =>
    rw [AnalyzedCondition.chainExprScopes, cond_size, block_list_size_append]
    have := chain_expr_scopes_size next
    have := block_size_pos thenB
    omega
  | .mk cnd es thenB (some (.inr lastB)) =>
    rw [AnalyzedCondition.chainExprScopes, cond_size]
    have := block_size_pos lastB
    omega
termination_by sizeOf c
decreasing_by all_goals (simp_wf <;> omega)

/-- A statement's subscopes are strictly smaller than the statement. -/
theorem subscopes_size (s : AnalyzedStatement) :
    block_list_size s.subscopes < stmt_size s := by
  match s with
  | .assignment (.mk aa pv es) =>
    rw [show (AnalyzedStatement.assignment (.mk aa pv es)).subscopes = es from rfl]
    rw [show stmt_size (.assignment (.mk aa pv es)) = 1 + block_list_size es from rfl]
    omega
  | .conditions c =>
    rw [show (AnalyzedStatement.conditions c).subscopes = c.chainExprScopes from rfl]
    rw [show stmt_size (.conditions c) = 1 + cond_size c from rfl]
    have := chain_expr_scopes_size c
    omega
  | .declareArgs (.mk cc body) =>
    rw [show (AnalyzedStatement.declareArgs (.mk cc body)).subscopes = [] from rfl]
    rw [show stmt_size (.declareArgs (.mk cc body)) = 1 + block_size body from rfl]
    rw [show block_list_size [] = 0 from rfl]
    omega
  | .foreach (.mk cc lv li es body) =>
    rw [show (AnalyzedStatement.foreach (.mk cc lv li es body)).subscopes = es from rfl]
    rw [show stmt_size (.foreach (.mk cc lv li es body))
      = 1 + block_list_size es + block_size body from rfl]
    omega
  | .forwardVariablesFrom (.mk cc inc es) =>
    rw [show (AnalyzedStatement.forwardVariablesFrom (.mk cc inc es)).subscopes = es from rfl]
    rw [show stmt_size (.forwardVariablesFrom (.mk cc inc es))
      = 1 + block_list_size es from rfl]
    omega
  | .importStmt (.mk cc nm pth) =>
    rw [show (AnalyzedStatement.importStmt (.mk cc nm pth)).subscopes = [] from rfl]
    rw [show stmt_size (.importStmt (.mk cc nm pth)) = 1 from rfl]
    rw [show block_list_size [] = 0 from rfl]
    omega
  | .target (.mk cc nm es body) =>
    rw [show (AnalyzedStatement.target (.mk cc nm es body)).subscopes = body :: es from rfl]
    rw [show block_list_size (body :: es) = block_size body + block_list_size es from rfl]
    rw [show stmt_size (.target (.mk cc nm es body))
      = 1 + block_list_size es + block_size body from rfl]
    omega
  | .template (.mk cc nm es body) =>
    rw [show (AnalyzedStatement.template (.mk cc nm es body)).subscopes = body :: es from rfl]
    rw [show block_list_size (body :: es) = block_size body + block_list_size es from rfl]
    rw [show stmt_size (.template (.mk cc nm es body))
      = 1 + block_list_size es + block_size body from rfl]
    omega
  | .builtinCall (.mk cc es none) =>
    rw [show (AnalyzedStatement.builtinCall (.mk cc es none)).subscopes = es from rfl]
    rw [show stmt_size (.builtinCall (.mk cc es none))
      = 1 + block_list_size es + 0 from rfl]
    omega
  | .builtinCall (.mk cc es (some body)) =>
    rw [show (AnalyzedStatement.builtinCall (.mk cc es (some body))).subscopes
      = body :: es from rfl]
    rw [show block_list_size (body :: es) = block_size body + block_list_size es from rfl]
    rw [show stmt_size (.builtinCall (.mk cc es (some body)))
      = 1 + block_list_size es + block_size body from rfl]
    omega
  | .error sp =>
    rw [show (AnalyzedStatement.error sp).subscopes = [] from rfl]
    rw [show stmt_size (AnalyzedStatement.error sp) = 1 from rfl]
    rw [show block_list_size [] = 0 from rfl]
    omega

/-! ### Top-level-statement traversal over the semantic tree
(src/analyzer/toplevel.rs, `AnalyzedTopLevelStatements`): condition arms,
`declare_args` bodies and `foreach` bodies are inlined into the enclosing
scope; other bodies are opaque. -/

mutual

def flatten_one (s : AnalyzedStatement) : List AnalyzedStatement :=
  match s with
  | .conditions c => .conditions c :: flatten_chain c
  | .declareArgs (.mk call (.mk bstmts bspan)) =>
    .declareArgs (.mk call (.mk bstmts bspan)) :: flatten_list bstmts
  | .foreach (.mk call lv li es (.mk bstmts bspan)) =>
    .foreach (.mk call lv li es (.mk bstmts bspan)) :: flatten_list bstmts
  | s => [s]

def flatten_chain (c : AnalyzedCondition) : List AnalyzedStatement :=
  match c with
  | .mk cnd es (.mk tstmts tspan) none => flatten_list tstmts
  | .mk cnd es (.mk tstmts tspan) (some (.inl next)) =>
    flatten_list tstmts ++ flatten_chain next
  | .mk cnd es (.mk tstmts tspan) (some (.inr (.mk lstmts lspan))) =>
    flatten_list tstmts ++ flatten_list lstmts

def flatten_list : List AnalyzedStatement → List AnalyzedStatement
  | [] => []
  | s :: rest => flatten_one s ++ flatten_list rest

end

/-- Weight of a statement for the position-query recursion: itself plus its
subscopes. -/
def wsize (s : AnalyzedStatement) : Nat :=
  1 + block_list_size s.subscopes

def wlist : List AnalyzedStatement → Nat
  | [] => 0
  | s :: rest => wsize s + wlist rest

theorem wlist_append (l1 l2 : List AnalyzedStatement) :
    wlist (l1 ++ l2) = wlist l1 + wlist l2 := by
  induction l1 with
  | nil => simp [wlist]
  | cons s rest ih =>
    rw [List.cons_append]
    rw [show wlist (s :: (rest ++ l2)) = wsize s + wlist (rest ++ l2) from rfl]
    rw [show wlist (s :: rest) = wsize s + wlist rest from rfl]
    omega

theorem block_list_size_flat_map_subscopes (l : List AnalyzedStatement) :
    block_list_size (l.flatMap AnalyzedStatement.subscopes) ≤ wlist l := by
  induction l with
  | nil => simp [block_list_size, wlist]
  | cons s rest ih =>
    rw [List.flatMap_cons, block_list_size_append, wlist]
    unfold wsize
    omega

theorem wlist_singleton (s : AnalyzedStatement) :
    wlist [s] = 1 + block_list_size s.subscopes := by
  rw [show wlist [s] = wsize s + wlist [] from rfl]
  rw [show wlist ([] : List AnalyzedStatement) = 0 from rfl]
  unfold wsize
  omega

mutual

theorem wlist_flatten_one (s : AnalyzedStatement) : wlist (flatten_one s) ≤ stmt_size s := by
  match s with
  | .conditions c =>
    rw [show flatten_one (.conditions c) = .conditions c :: flatten_chain c from rfl]
    rw [show wlist (AnalyzedStatement.conditions c :: flatten_chain c)
      = wsize (.conditions c) + wlist (flatten_chain c) from rfl]
    rw [show wsize (.conditions c) = 1 + block_list_size c.chainExprScopes from rfl]
    rw [show stmt_size (.conditions c) = 1 + cond_size c from rfl]
    have := wlist_flatten_chain c
    omega
  | .declareArgs (.mk cc (.mk bstmts bspan)) =>
    rw [show flatten_one (.declareArgs (.mk cc (.mk bstmts bspan)))
      = .declareArgs (.mk cc (.mk bstmts bspan)) :: flatten_list bstmts from rfl]
    rw [show wlist (AnalyzedStatement.declareArgs (.mk cc (.mk bstmts bspan))
        :: flatten_list bstmts)
      = wsize (.declareArgs (.mk cc (.mk bstmts bspan))) + wlist (flatten_list bstmts)
      from rfl]
    rw [show wsize (.declareArgs (.mk cc (.mk bstmts bspan))) = 1 from rfl]
    rw [show stmt_size (.declareArgs (.mk cc (.mk bstmts bspan)))
      = 1 + (1 + stmt_list_size bstmts) from rfl]
    have := wlist_flatten_list bstmts
    omega
  | .foreach (.mk cc lv li es (.mk bstmts bspan)) =>
    rw [show flatten_one (.foreach (.mk cc lv li es (.mk bstmts bspan)))
      = .foreach (.mk cc lv li es (.mk bstmts bspan)) :: flatten_list bstmts from rfl]
    rw [show wlist (AnalyzedStatement.foreach (.mk cc lv li es (.mk bstmts bspan))
        :: flatten_list bstmts)
      = wsize (.foreach (.mk cc lv li es (.mk bstmts bspan))) + wlist (flatten_list bstmts)
      from rfl]
    rw [show wsize (.foreach (.mk cc lv li es (.mk bstmts bspan)))
      = 1 + block_list_size es from rfl]
    rw [show stmt_size (.foreach (.mk cc lv li es (.mk bstmts bspan)))
      = 1 + block_list_size es + (1 + stmt_list_size bstmts) from rfl]
    have := wlist_flatten_list bstmts
    omega
  | .assignment a =>
    rw [show flatten_one (.assignment a) = [.assignment a] from rfl, wlist_singleton]
    have := subscopes_size (.assignment a)
    omega
  | .forwardVariablesFrom f =>
    rw [show flatten_one (.forwardVariablesFrom f) = [.forwardVariablesFrom f] from rfl,
      wlist_singleton]
    have := subscopes_size (.forwardVariablesFrom f)
    omega
  | .importStmt i =>
    rw [show flatten_one (.importStmt i) = [.importStmt i] from rfl, wlist_singleton]
    have := subscopes_size (.importStmt i)
    omega
  | .target t =>
    rw [show flatten_one (.target t) = [.target t] from rfl, wlist_singleton]
    have := subscopes_size (.target t)
    omega
  | .template t =>
    rw [show flatten_one (.template t) = [.template t] from rfl, wlist_singleton]
    have := subscopes_size (.template t)
    omega
  | .builtinCall b =>
    rw [show flatten_one (.builtinCall b) = [.builtinCall b] from rfl, wlist_singleton]
    have := subscopes_size (.builtinCall b)
    omega
  | .error sp =>
    rw [show flatten_one (.error sp) = [.error sp] from rfl, wlist_singleton]
    have := subscopes_size (.error sp)
    omega
termination_by sizeOf s
decreasing_by all_goals (simp_wf <;> omega)

theorem wlist_flatten_chain (c : AnalyzedCondition) :
    block_list_size c.chainExprScopes + wlist (flatten_chain c) ≤ cond_size c := by
  match c with
  | .mk cnd es (.mk tstmts tspan) none =>
    rw [show (AnalyzedCondition.mk cnd es (.mk tstmts tspan) none).chainExprScopes = es
      from rfl]
    rw [show flatten_chain (.mk cnd es (.mk tstmts tspan) none) = flatten_list tstmts
      from rfl]
    rw [show cond_size (.mk cnd es (.mk tstmts tspan) none)
      = block_list_size es + (1 + stmt_list_size tstmts) from rfl]
    have := wlist_flatten_list tstmts
    omega
  | .mk cnd es (.mk tstmts tspan) (some (.inl next)) =>
    rw [show (AnalyzedCondition.mk cnd es (.mk tstmts tspan)
        (some (.inl next))).chainExprScopes = es ++ next.chainExprScopes from rfl]
    rw [show flatten_chain (.mk cnd es (.mk tstmts tspan) (some (.inl next)))
      = flatten_list tstmts ++ flatten_chain next from rfl]
    rw [show cond_size (.mk cnd es (.mk tstmts tspan) (some (.inl next)))
      = block_list_size es + (1 + stmt_list_size tstmts) + cond_size next from rfl]
    rw [block_list_size_append, wlist_append]
    have h1 := wlist_flatten_list tstmts
    have h2 := wlist_flatten_chain next
    omega
  | .mk cnd es (.mk tstmts tspan) (some (.inr (.mk lstmts lspan))) =>
    rw [show (AnalyzedCondition.mk cnd es (.mk tstmts tspan)
        (some (.inr (.mk lstmts lspan)))).chainExprScopes = es from rfl]
    rw [show flatten_chain (.mk cnd es (.mk tstmts tspan) (some (.inr (.mk lstmts lspan))))
      = flatten_list tstmts ++ flatten_list lstmts from rfl]
    rw [show cond_size (.mk cnd es (.mk tstmts tspan) (some (.inr (.mk lstmts lspan))))
      = block_list_size es + (1 + stmt_list_size tstmts) + (1 + stmt_list_size lstmts)
      from rfl]
    rw [wlist_append]
    have h1 := wlist_flatten_list tstmts
    have h2 := wlist_flatten_list lstmts
    omega
termination_by sizeOf c
decreasing_by all_goals (simp_wf <;> omega)

theorem wlist_flatten_list (l : List AnalyzedStatement) :
    wlist (flatten_list l) ≤ stmt_list_size l := by
  match l with
  | [] =>
    rw [show flatten_list [] = [] from rfl]
    rw [show wlist [] = 0 from rfl]
    omega
  | s :: rest =>
    rw [show flatten_list (s :: rest) = flatten_one s ++ flatten_list rest from rfl]
    rw [wlist_append]
    rw [show stmt_list_size (s :: rest) = stmt_size s + stmt_list_size rest from rfl]
    have h1 := wlist_flatten_one s
    have h2 := wlist_flatten_list rest
    omega
termination_by sizeOf l
decreasing_by all_goals (simp_wf <;> omega)

end

/-! ### Variables and assignments (src/analyzer/data.rs)

`primaryName` models `primary_variable.as_str()` — the text the span
denotes — since spans here do not carry the document; comments and the
owning document are not modelled. -/

inductive AssignmentOrCall where
  | assignment (a : Assignment)
  | call (c : Call)

structure VariableAssignment where
  assignmentOrCall : AssignmentOrCall
  primaryVariable : Span
  primaryName : String

structure Variable where
  name : String
  assignments : List VariableAssignment
  isArgs : Bool

def Variable.new (name : String) (isArgs : Bool) : Variable :=
  ⟨name, [], isArgs⟩

/-- `AnalyzedAssignment::as_variable_assignment` (src/analyzer/data.rs). -/
def AnalyzedAssignment.asVariableAssignment : AnalyzedAssignment → VariableAssignment
  | .mk a pv _ => ⟨.assignment a, pv.span, pv.name⟩

/-- `AnalyzedForeach::as_variable_assignment` (src/analyzer/data.rs): the loop
variable counts as assigned by the `foreach` call. -/
def AnalyzedForeach.asVariableAssignment : AnalyzedForeach → VariableAssignment
  | .mk call lv _ _ _ => ⟨.call call, lv.span, lv.name⟩

/-- `AnalyzedForwardVariablesFrom::as_variable_assignment`
(src/analyzer/data.rs): every simple-string element of a literal include
list yields a synthetic assignment whose span drops the quotes; a
non-list include yields nothing. Excludes are not handled (source TODO). -/
def AnalyzedForwardVariablesFrom.asVariableAssignments :
    AnalyzedForwardVariablesFrom → List VariableAssignment
  | .mk call includes _ =>
    match includes.asPrimaryList with
    | none => []
    | some values =>
      values.filterMap (fun e =>
        match e.asPrimaryString with
        | some (raw, sp) =>
          match parse_simple_literal raw with
          | some _ =>
            some ⟨.call call, ⟨sp.startPos + 1, sp.endPos - 1⟩, raw⟩
          | none => none
        | none => none)

/-- The declare-args stack pop loop shared by the exports pass and
locals-at-position: frames whose span ended before the statement starts are
popped. -/
def pop_declare_args (stack : List Call) (stmtStart : Nat) : List Call :=
  match stack with
  | [] => []
  | top :: rest =>
    if stmtStart ≤ top.span.endPos then top :: rest
    else pop_declare_args rest stmtStart

/-- Record one variable assignment:
`variables.entry(name).or_insert_with(|| Variable::new(name, is_args))
.assignments.push(va)`. -/
def record_assignment (vars : List (String × Variable)) (name : String)
    (isArgs : Bool) (va : VariableAssignment) : List (String × Variable) :=
  mupdate vars name (Variable.new name isArgs)
    (fun v => { v with assignments := v.assignments ++ [va] })

def record_assignments (vars : List (String × Variable)) (isArgs : Bool) :
    List VariableAssignment → List (String × Variable)
  | [] => vars
  | va :: rest => record_assignments (record_assignment vars va.primaryName isArgs va) isArgs rest

/-- First pass of `AnalyzedBlock::local_variables_at` (src/analyzer/data.rs):
collect every variable assigned in the flattened scope, with `is_args` from
the declare-args stack at the first (inserting) assignment. -/
def locals_first_pass :
    List AnalyzedStatement → List Call → List (String × Variable) → List (String × Variable)
  | [], _, vars => vars
  | s :: rest, stack, vars =>
    let stack2 := pop_declare_args stack s.span.startPos
    match s with
    | .assignment a =>
      let va := a.asVariableAssignment
      locals_first_pass rest stack2
        (record_assignment vars va.primaryName (!stack2.isEmpty) va)
    | .foreach f =>
      let va := f.asVariableAssignment
      locals_first_pass rest stack2
        (record_assignment vars va.primaryName (!stack2.isEmpty) va)
    | .forwardVariablesFrom f =>
      locals_first_pass rest stack2
        (record_assignments vars (!stack2.isEmpty) f.asVariableAssignments)
    | .declareArgs (.mk call body) =>
      locals_first_pass rest (call :: stack2) vars
    | _ => locals_first_pass rest stack2 vars

mutual

/-- Translation of `AnalyzedBlock::local_variables_at` (src/analyzer/data.rs):
first pass collects the flattened scope's assignments; second pass merges the
variables of every subscope whose span strictly contains `pos`. -/
def local_variables_at (b : AnalyzedBlock) (pos : Nat) : List (String × Variable) :=
  locals_second_pass pos
    ((flatten_list b.statements).flatMap AnalyzedStatement.subscopes)
    (locals_first_pass (flatten_list b.statements) [] [])
termination_by 2 * block_size b
decreasing_by
  simp_wf
  have h1 := block_list_size_flat_map_subscopes (flatten_list b.statements)
  have h2 := wlist_flatten_list b.statements
  have h3 : block_size b = 1 + stmt_list_size b.statements := by
    cases b
    rfl
  omega

/-- The subscope loop of the second pass. -/
def locals_second_pass (pos : Nat) :
    List AnalyzedBlock → List (String × Variable) → List (String × Variable)
  | [], vars => vars
  | sc :: rest, vars =>
    if sc.span.startPos < pos ∧ pos < sc.span.endPos then
      locals_second_pass pos rest (mextend vars (local_variables_at sc pos))
    else
      locals_second_pass pos rest vars
termination_by scopes _ => 2 * block_list_size scopes + 1
decreasing_by
  all_goals
    rw [show block_list_size (sc :: rest) = block_size sc + block_list_size rest from rfl]
  · have := block_size_pos sc
    omega
  · have := block_size_pos sc
    omega
  · have := block_size_pos sc
    omega

end

/-! ### Top-level-statement traversal over the parsed tree
(src/analyzer/toplevel.rs, `TopLevelStatements`): condition arms and the
bodies of `declare_args` / `foreach` calls are inlined. -/

mutual

def flattenP_one (s : Statement) : List Statement :=
  match s with
  | .condition c => .condition c :: flattenP_chain c
  | .call (.mk fn args blockOpt span) =>
    if fn.name = DECLARE_ARGS ∨ fn.name = FOREACH then
      .call (.mk fn args blockOpt span) ::
        (match blockOpt with
         | some (.mk bstmts _) => flattenP_list bstmts
         | none => [])
    else [.call (.mk fn args blockOpt span)]
  | s => [s]

def flattenP_chain (c : Condition) : List Statement :=
  match c with
  | .mk _ (.mk tstmts _) none _ => flattenP_list tstmts
  | .mk _ (.mk tstmts _) (some (.inl next)) _ =>
    flattenP_list tstmts ++ flattenP_chain next
  | .mk _ (.mk tstmts _) (some (.inr (.mk lstmts _))) _ =>
    flattenP_list tstmts ++ flattenP_list lstmts

def flattenP_list : List Statement → List Statement
  | [] => []
  | s :: rest => flattenP_one s ++ flattenP_list rest

end

/-! ### File exports (src/analyzer/mod.rs, `analyze_exports`) -/

structure Template where
  call : Call
  name : String

structure Target where
  call : Call
  name : String

structure FileExports where
  /-- The `variables` table (`variables` clashes with a Lean command). -/
  vars : List (String × Variable)
  templates : List (String × Template)
  targets : List (String × Target)
  children : List String

def FileExports.empty : FileExports :=
  ⟨[], [], [], []⟩

/-- The primary identifier of an lvalue: the `array` of an array access, the
`scope` of a scope access. -/
def LValue.primaryIdentifier : LValue → Identifier
  | .identifier i => i
  | .arrayAccess aa => aa.array
  | .scopeAccess sa => sa.scope

/-- The `forward_variables_from` string loop of the exports pass. -/
def exports_record_forward (c : Call) (stack : List Call)
    (vars : List (String × Variable)) :
    List (String × Span) → List (String × Variable)
  | [] => vars
  | (raw, sp) :: rest =>
    match parse_simple_literal raw with
    | some name =>
      if is_exported name then
        exports_record_forward c stack
          (record_assignment vars name (!stack.isEmpty) ⟨.call c, sp, raw⟩) rest
      else exports_record_forward c stack vars rest
    | none => exports_record_forward c stack vars rest

/-- One step of the exports pass: the declare-args pop loop, then the
per-statement action (src/analyzer/mod.rs 525-643). -/
def exports_step (resolve : String → String) (st : List Call × FileExports)
    (s : Statement) : List Call × FileExports :=
  let stack := pop_declare_args st.1 s.span.startPos
  let ex := st.2
  match s with
  | .assignment a =>
    let identifier := a.lvalue.primaryIdentifier
    if is_exported identifier.name then
      (stack,
        { ex with
          vars := record_assignment ex.vars identifier.name
            (!stack.isEmpty)
            ⟨.assignment a, identifier.span, identifier.name⟩ })
    else (stack, ex)
  | .call c =>
    if c.function.name = IMPORT then
      match c.onlyArg with
      | some e =>
        match e.asSimpleString with
        | some name => (stack, { ex with children := ex.children ++ [resolve name] })
        | none => (stack, ex)
      | none => (stack, ex)
    else if c.function.name = TEMPLATE then
      match c.onlyArg with
      | some e =>
        match e.asSimpleString with
        | some name =>
          if is_exported name then
            (stack, { ex with templates := minsert ex.templates name ⟨c, name⟩ })
          else (stack, ex)
        | none => (stack, ex)
      | none => (stack, ex)
    else if c.function.name = DECLARE_ARGS then
      (c :: stack, ex)
    else if c.function.name = FOREACH ∨ c.function.name = SET_DEFAULTS then
      (stack, ex)
    else if c.function.name = FORWARD_VARIABLES_FROM then
      match c.args[1]? with
      | some e =>
        match e.asPrimaryList with
        | some values =>
          (stack,
            { ex with
              vars := exports_record_forward c stack ex.vars
                (values.filterMap GExpr.asPrimaryString) })
        | none => (stack, ex)
      | none => (stack, ex)
    else
      match c.onlyArg with
      | some e =>
        match e.asSimpleString with
        | some name => (stack, { ex with targets := minsert ex.targets name ⟨c, name⟩ })
        | none => (stack, ex)
      | none => (stack, ex)
  | .condition _ => (stack, ex)
  | .error _ => (stack, ex)

def exports_fold (resolve : String → String) :
    List Statement → List Call × FileExports → List Call × FileExports
  | [], st => st
  | s :: rest, st => exports_fold resolve rest (exports_step resolve st s)

/-- Translation of `WorkspaceAnalyzer::analyze_exports`
(src/analyzer/mod.rs): a fold over the flattened top-level statements with a
declare-args stack. -/
def analyze_exports (resolve : String → String) (b : Block) : FileExports :=
  (exports_fold resolve (flattenP_list b.statements) ([], FileExports.empty)).2

/-! ### Assignment events: the order in which the exports pass and the
locals first pass record variable assignments, together with the
declare-args flag in force at each record. -/

theorem mfind_mupdate_self (m : List (String × α)) (k : String) (init : α) (f : α → α) :
    mfind (mupdate m k init f) k = some (f ((mfind m k).getD init)) := by
  induction m with
  | nil => simp [mupdate, mfind]
  | cons hd tl ih =>
    obtain ⟨k2, v2⟩ := hd
    by_cases h : k2 = k <;> simp [mupdate, mfind, h, ih]

theorem mfind_mupdate_ne (m : List (String × α)) (k k2 : String) (init : α) (f : α → α)
    (h : k ≠ k2) : mfind (mupdate m k init f) k2 = mfind m k2 := by
  induction m with
  | nil => simp [mupdate, mfind, h]
  | cons hd tl ih =>
    obtain ⟨k3, v3⟩ := hd
    by_cases h3 : k3 = k
    · subst h3
      simp [mupdate, mfind, h]
    · simp only [mupdate, if_neg h3]
      by_cases h4 : k3 = k2 <;> simp [mfind, h4, ih]

/-- The recorded maps agree with an event list: the stored `is_args` of every
variable equals the flag of its first recorded assignment. -/
def events_agree (m : List (String × Variable)) (evs : List (String × Bool)) : Prop :=
  ∀ name, Option.map Variable.isArgs (mfind m name) = mfind evs name

theorem events_agree_nil : events_agree [] [] := by
  intro name
  simp [mfind]

theorem record_assignment_isArgs (m : List (String × Variable)) (n : String) (f : Bool)
    (va : VariableAssignment) :
    Option.map Variable.isArgs (mfind (record_assignment m n f va) n)
      = some (((Option.map Variable.isArgs (mfind m n)).getD f)) := by
  unfold record_assignment
  rw [mfind_mupdate_self]
  cases h : mfind m n <;> simp [h, Variable.new]

theorem events_agree_record (m : List (String × Variable)) (evs : List (String × Bool))
    (n : String) (f : Bool) (va : VariableAssignment) (h : events_agree m evs) :
    events_agree (record_assignment m n f va) (evs ++ [(n, f)]) := by
  intro name
  by_cases hn : n = name
  · subst hn
    rw [record_assignment_isArgs, mfind_append, ← h n]
    cases mfind m n <;> simp [mfind]
  · unfold record_assignment
    rw [mfind_mupdate_ne _ _ _ _ _ hn, mfind_append, ← h name]
    have : mfind [(n, f)] name = none := by simp [mfind, hn]
    rw [this]
    cases mfind m name <;> simp

theorem events_agree_records (m : List (String × Variable)) (evs : List (String × Bool))
    (f : Bool) (vas : List VariableAssignment) (h : events_agree m evs) :
    events_agree (record_assignments m f vas)
      (evs ++ vas.map (fun va => (va.primaryName, f))) := by
  induction vas generalizing m evs with
  | nil => simpa [record_assignments] using h
  | cons va rest ih =>
    rw [record_assignments]
    have h2 := events_agree_record m evs va.primaryName f va h
    have h3 := ih _ _ h2
    simpa using h3

/-- The events emitted by the `forward_variables_from` loop of the exports
pass. -/
def fvf_events (stack2 : List Call) : List (String × Span) → List (String × Bool)
  | [] => []
  | (raw, _) :: rest =>
    match parse_simple_literal raw with
    | some name =>
      if is_exported name then (name, !stack2.isEmpty) :: fvf_events stack2 rest
      else fvf_events stack2 rest
    | none => fvf_events stack2 rest

theorem events_agree_record_forward (c : Call)
    (stack2 : List Call) (lst : List (String × Span))
    (m : List (String × Variable)) (evs : List (String × Bool)) (h : events_agree m evs) :
    events_agree (exports_record_forward c stack2 m lst)
      (evs ++ fvf_events stack2 lst) := by
  induction lst generalizing m evs with
  | nil => simpa [exports_record_forward, fvf_events] using h
  | cons hd rest ih =>
    obtain ⟨raw, sp⟩ := hd
    rw [exports_record_forward, fvf_events]
    cases hp : parse_simple_literal raw with
    | none => simpa [hp] using ih _ _ h
    | some name =>
      by_cases he : is_exported name
      · simp only [hp, he, if_true]
        have h2 := events_agree_record m evs name (!stack2.isEmpty)
          ⟨.call c, sp, raw⟩ h
        have h3 := ih _ _ h2
        simpa using h3
      · simp only [hp, Bool.not_eq_true] at he ⊢
        rw [he]
        simpa using ih _ _ h

/-- The events a single flattened statement contributes to the exports pass,
given the popped declare-args stack. -/
def stmt_events (s : Statement) (stack2 : List Call) : List (String × Bool) :=
  match s with
  | .assignment a =>
    if is_exported a.lvalue.primaryIdentifier.name then
      [(a.lvalue.primaryIdentifier.name, !stack2.isEmpty)]
    else []
  | .call c =>
    if c.function.name = IMPORT then []
    else if c.function.name = TEMPLATE then []
    else if c.function.name = DECLARE_ARGS then []
    else if c.function.name = FOREACH ∨ c.function.name = SET_DEFAULTS then []
    else if c.function.name = FORWARD_VARIABLES_FROM then
      match c.args[1]? with
      | some e =>
        match e.asPrimaryList with
        | some values => fvf_events stack2 (values.filterMap GExpr.asPrimaryString)
        | none => []
      | none => []
    else []
  | .condition _ => []
  | .error _ => []

/-- The declare-args stack after a statement of the exports pass. -/
def exports_next_stack (s : Statement) (stack2 : List Call) : List Call :=
  match s with
  | .call c =>
    if c.function.name = IMPORT then stack2
    else if c.function.name = TEMPLATE then stack2
    else if c.function.name = DECLARE_ARGS then c :: stack2
    else stack2
  | _ => stack2

/-- All assignment events of the exports pass, in traversal order. -/
def export_events : List Statement → List Call → List (String × Bool)
  | [], _ => []
  | s :: rest, stack =>
    let stack2 := pop_declare_args stack s.span.startPos
    stmt_events s stack2 ++ export_events rest (exports_next_stack s stack2)

theorem exports_step_spec (resolve : String → String) (stack : List Call)
    (ex : FileExports) (s : Statement) :
    (exports_step resolve (stack, ex) s).1
      = exports_next_stack s (pop_declare_args stack s.span.startPos)
    ∧ ∀ evs, events_agree ex.vars evs →
      events_agree (exports_step resolve (stack, ex) s).2.vars
        (evs ++ stmt_events s (pop_declare_args stack s.span.startPos)) := by
  cases s with
  | assignment a =>
    constructor
    · simp only [exports_step, exports_next_stack]
      split <;> rfl
    · intro evs h
      by_cases he : is_exported a.lvalue.primaryIdentifier.name
      · simp only [exports_step, stmt_events, he, if_true]
        exact events_agree_record _ _ _ _ _ h
      · simp only [exports_step, stmt_events, he, Bool.false_eq_true, if_false]
        simpa using h
  | condition c =>
    constructor
    · rfl
    · intro evs h
      simpa [exports_step, stmt_events] using h
  | error sp =>
    constructor
    · rfl
    · intro evs h
      simpa [exports_step, stmt_events] using h
  | call c =>
    by_cases h1 : c.function.name = "import"
    · constructor
      · cases ho : c.onlyArg with
        | none => simp [exports_step, exports_next_stack, h1, ho]
        | some e =>
          cases hs : e.asSimpleString <;>
            simp [exports_step, exports_next_stack, h1, ho, hs]
      · intro evs h
        cases ho : c.onlyArg with
        | none => simpa [exports_step, stmt_events, h1, ho] using h
        | some e =>
          cases hs : e.asSimpleString <;>
            simpa [exports_step, stmt_events, h1, ho, hs] using h
    · by_cases h2 : c.function.name = "template"
      · constructor
        · cases ho : c.onlyArg with
          | none => simp [exports_step, exports_next_stack, h1, h2, ho]
          | some e =>
            cases hs : e.asSimpleString with
            | none => simp [exports_step, exports_next_stack, h1, h2, ho, hs]
            | some name =>
              by_cases he : is_exported name <;>
                simp [exports_step, exports_next_stack, h1, h2, ho, hs, he]
        · intro evs h
          cases ho : c.onlyArg with
          | none => simpa [exports_step, stmt_events, h1, h2, ho] using h
          | some e =>
            cases hs : e.asSimpleString with
            | none => simpa [exports_step, stmt_events, h1, h2, ho, hs] using h
            | some name =>
              by_cases he : is_exported name <;>
                simpa [exports_step, stmt_events, h1, h2, ho, hs, he] using h
      · by_cases h3 : c.function.name = "declare_args"
        · constructor
          · simp [exports_step, exports_next_stack, h1, h2, h3]
          · intro evs h
            simpa [exports_step, stmt_events, h1, h2, h3] using h
        · by_cases h4 : c.function.name = "foreach" ∨ c.function.name = "set_defaults"
          · constructor
            · simp [exports_step, exports_next_stack, h1, h2, h3, h4]
            · intro evs h
              simpa [exports_step, stmt_events, h1, h2, h3, h4] using h
          · by_cases h5 : c.function.name = "forward_variables_from"
            · constructor
              · cases ha : c.args[1]? with
                | none => simp [exports_step, exports_next_stack, h1, h2, h3, h4, h5, ha]
                | some e =>
                  cases hl : e.asPrimaryList <;>
                    simp [exports_step, exports_next_stack, h1, h2, h3, h4, h5, ha, hl]
              · intro evs h
                cases ha : c.args[1]? with
                | none =>
                  simpa [exports_step, stmt_events, h1, h2, h3, h4, h5, ha] using h
                | some e =>
                  cases hl : e.asPrimaryList with
                  | none =>
                    simpa [exports_step, stmt_events, h1, h2, h3, h4, h5, ha, hl] using h
                  | some values =>
                    simp only [exports_step, stmt_events, h1, h2, h3, h4, h5, ha, hl,
                      if_false, if_true]
                    exact events_agree_record_forward c _ _ _ _ h
            · constructor
              · cases ho : c.onlyArg with
                | none => simp [exports_step, exports_next_stack, h1, h2, h3, h4, h5, ho]
                | some e =>
                  cases hs : e.asSimpleString <;>
                    simp [exports_step, exports_next_stack, h1, h2, h3, h4, h5, ho, hs]
              · intro evs h
                cases ho : c.onlyArg with
                | none =>
                  simpa [exports_step, stmt_events, h1, h2, h3, h4, h5, ho] using h
                | some e =>
                  cases hs : e.asSimpleString <;>
                    simpa [exports_step, stmt_events, h1, h2, h3, h4, h5, ho, hs] using h

theorem exports_fold_events (resolve : String → String) (l : List Statement) :
    ∀ stack ex evs, events_agree ex.vars evs →
      events_agree (exports_fold resolve l (stack, ex)).2.vars
        (evs ++ export_events l stack) := by
  induction l with
  | nil =>
    intro stack ex evs h
    simpa [exports_fold, export_events] using h
  | cons s rest ih =>
    intro stack ex evs h
    rw [exports_fold, export_events]
    obtain ⟨hstack, hagree⟩ := exports_step_spec resolve stack ex s
    have h2 := hagree evs h
    have h3 := ih (exports_step resolve (stack, ex) s).1
      (exports_step resolve (stack, ex) s).2
      (evs ++ stmt_events s (pop_declare_args stack s.span.startPos)) h2
    rw [← hstack]
    simpa [List.append_assoc, Prod.mk.eta] using h3

/-- All assignment events of the locals first pass, in traversal order. -/
def locals_events : List AnalyzedStatement → List Call → List (String × Bool)
  | [], _ => []
  | s :: rest, stack =>
    let stack2 := pop_declare_args stack s.span.startPos
    match s with
    | .assignment a =>
      (a.asVariableAssignment.primaryName, !stack2.isEmpty) :: locals_events rest stack2
    | .foreach f =>
      (f.asVariableAssignment.primaryName, !stack2.isEmpty) :: locals_events rest stack2
    | .forwardVariablesFrom f =>
      f.asVariableAssignments.map (fun va => (va.primaryName, !stack2.isEmpty))
        ++ locals_events rest stack2
    | .declareArgs (.mk call _) => locals_events rest (call :: stack2)
    | _ => locals_events rest stack2

theorem locals_first_pass_events :
    ∀ (l : List AnalyzedStatement) (stack : List Call) (m : List (String × Variable))
      (evs : List (String × Bool)), events_agree m evs →
      events_agree (locals_first_pass l stack m) (evs ++ locals_events l stack) := by
  intro l
  induction l with
  | nil =>
    intro stack m evs h
    simpa [locals_first_pass, locals_events] using h
  | cons s rest ih =>
    intro stack m evs h
    cases s with
    | assignment a =>
      simp only [locals_first_pass, locals_events]
      have h2 := events_agree_record m evs a.asVariableAssignment.primaryName
        (!(pop_declare_args stack (AnalyzedStatement.assignment a).span.startPos).isEmpty)
        a.asVariableAssignment h
      have h3 := ih (pop_declare_args stack (AnalyzedStatement.assignment a).span.startPos)
        _ _ h2
      simpa [List.append_assoc] using h3
    | foreach f =>
      simp only [locals_first_pass, locals_events]
      have h2 := events_agree_record m evs f.asVariableAssignment.primaryName
        (!(pop_declare_args stack (AnalyzedStatement.foreach f).span.startPos).isEmpty)
        f.asVariableAssignment h
      have h3 := ih (pop_declare_args stack (AnalyzedStatement.foreach f).span.startPos)
        _ _ h2
      simpa [List.append_assoc] using h3
    | forwardVariablesFrom f =>
      simp only [locals_first_pass, locals_events]
      have h2 := events_agree_records m evs
        (!(pop_declare_args stack
          (AnalyzedStatement.forwardVariablesFrom f).span.startPos).isEmpty)
        f.asVariableAssignments h
      have h3 := ih
        (pop_declare_args stack
          (AnalyzedStatement.forwardVariablesFrom f).span.startPos) _ _ h2
      simpa [List.append_assoc] using h3
    | declareArgs d =>
      obtain ⟨call, body⟩ := d
      simp only [locals_first_pass, locals_events]
      exact ih _ _ _ h
    | conditions c =>
      simp only [locals_first_pass, locals_events]
      exact ih _ _ _ h
    | importStmt i =>
      simp only [locals_first_pass, locals_events]
      exact ih _ _ _ h
    | target t =>
      simp only [locals_first_pass, locals_events]
      exact ih _ _ _ h
    | template t =>
      simp only [locals_first_pass, locals_events]
      exact ih _ _ _ h
    | builtinCall bc =>
      simp only [locals_first_pass, locals_events]
      exact ih _ _ _ h
    | error sp =>
      simp only [locals_first_pass, locals_events]
      exact ih _ _ _ h

/-! ### Duplicate-free keys of the computed maps -/

def mkeys (m : List (String × α)) : List String :=
  m.map Prod.fst

theorem mkeys_minsert_subset (m : List (String × α)) (k : String) (v : α) :
    mkeys (minsert m k v) ⊆ k :: mkeys m := by
  induction m with
  | nil => simp [minsert, mkeys]
  | cons hd tl ih =>
    obtain ⟨k2, v2⟩ := hd
    by_cases h : k2 = k
    · subst h
      simp [minsert, mkeys]
    · simp only [minsert, if_neg h, mkeys, List.map_cons]
      intro x hx
      rcases List.mem_cons.mp hx with rfl | hx
      · simp [mkeys]
      · rcases List.mem_cons.mp (ih hx) with rfl | hmem
        · exact List.mem_cons_self _ _
        · simp only [mkeys, List.map_cons, List.mem_cons]
          tauto

theorem mkeys_minsert_nodup (m : List (String × α)) (k : String) (v : α)
    (h : (mkeys m).Nodup) : (mkeys (minsert m k v)).Nodup := by
  induction m with
  | nil => simp [minsert, mkeys]
  | cons hd tl ih =>
    obtain ⟨k2, v2⟩ := hd
    rw [mkeys, List.map_cons, List.nodup_cons] at h
    by_cases h2 : k2 = k
    · subst h2
      simpa [minsert, mkeys, List.nodup_cons] using h
    · simp only [minsert, if_neg h2, mkeys, List.map_cons, List.nodup_cons]
      refine ⟨?_, ih h.2⟩
      intro habs
      rcases List.mem_cons.mp (mkeys_minsert_subset tl k v habs) with heq | hmem
      · exact h2 heq
      · exact h.1 hmem

theorem mkeys_mupdate_subset (m : List (String × α)) (k : String) (init : α) (f : α → α) :
    mkeys (mupdate m k init f) ⊆ k :: mkeys m := by
  induction m with
  | nil => simp [mupdate, mkeys]
  | cons hd tl ih =>
    obtain ⟨k2, v2⟩ := hd
    by_cases h : k2 = k
    · subst h
      simp [mupdate, mkeys]
    · simp only [mupdate, if_neg h, mkeys, List.map_cons]
      intro x hx
      rcases List.mem_cons.mp hx with rfl | hx
      · simp [mkeys]
      · rcases List.mem_cons.mp (ih hx) with rfl | hmem
        · exact List.mem_cons_self _ _
        · simp only [mkeys, List.map_cons, List.mem_cons]
          tauto

theorem mkeys_mupdate_nodup (m : List (String × α)) (k : String) (init : α) (f : α → α)
    (h : (mkeys m).Nodup) : (mkeys (mupdate m k init f)).Nodup := by
  induction m with
  | nil => simp [mupdate, mkeys]
  | cons hd tl ih =>
    obtain ⟨k2, v2⟩ := hd
    rw [mkeys, List.map_cons, List.nodup_cons] at h
    by_cases h2 : k2 = k
    · subst h2
      simpa [mupdate, mkeys, List.nodup_cons] using h
    · simp only [mupdate, if_neg h2, mkeys, List.map_cons, List.nodup_cons]
      refine ⟨?_, ih h.2⟩
      intro habs
      rcases List.mem_cons.mp (mkeys_mupdate_subset tl k init f habs) with heq | hmem
      · exact h2 heq
      · exact h.1 hmem

theorem mkeys_mextend_nodup (m new : List (String × α)) (h : (mkeys m).Nodup) :
    (mkeys (mextend m new)).Nodup := by
  induction new generalizing m with
  | nil => simpa [mextend] using h
  | cons hd tl ih =>
    show (mkeys (mextend (minsert m hd.1 hd.2) tl)).Nodup
    exact ih _ (mkeys_minsert_nodup m hd.1 hd.2 h)

theorem record_assignment_nodup (m : List (String × Variable)) (n : String) (f : Bool)
    (va : VariableAssignment) (h : (mkeys m).Nodup) :
    (mkeys (record_assignment m n f va)).Nodup :=
  mkeys_mupdate_nodup m n _ _ h

theorem record_assignments_nodup (m : List (String × Variable)) (f : Bool)
    (vas : List VariableAssignment) (h : (mkeys m).Nodup) :
    (mkeys (record_assignments m f vas)).Nodup := by
  induction vas generalizing m with
  | nil => simpa [record_assignments] using h
  | cons va rest ih =>
    rw [record_assignments]
    exact ih _ (record_assignment_nodup m va.primaryName f va h)

theorem locals_first_pass_nodup :
    ∀ (l : List AnalyzedStatement) (stack : List Call) (m : List (String × Variable)),
      (mkeys m).Nodup → (mkeys (locals_first_pass l stack m)).Nodup := by
  intro l
  induction l with
  | nil =>
    intro stack m h
    simpa [locals_first_pass] using h
  | cons s rest ih =>
    intro stack m h
    cases s with
    | assignment a =>
      simp only [locals_first_pass]
      exact ih _ _ (record_assignment_nodup _ _ _ _ h)
    | foreach f =>
      simp only [locals_first_pass]
      exact ih _ _ (record_assignment_nodup _ _ _ _ h)
    | forwardVariablesFrom f =>
      simp only [locals_first_pass]
      exact ih _ _ (record_assignments_nodup _ _ _ h)
    | declareArgs d =>
      obtain ⟨call, body⟩ := d
      simp only [locals_first_pass]
      exact ih _ _ h
    | conditions c =>
      simp only [locals_first_pass]
      exact ih _ _ h
    | importStmt i =>
      simp only [locals_first_pass]
      exact ih _ _ h
    | target t =>
      simp only [locals_first_pass]
      exact ih _ _ h
    | template t =>
      simp only [locals_first_pass]
      exact ih _ _ h
    | builtinCall bc =>
      simp only [locals_first_pass]
      exact ih _ _ h
    | error sp =>
      simp only [locals_first_pass]
      exact ih _ _ h

theorem locals_second_pass_nodup (pos : Nat) :
    ∀ (scopes : List AnalyzedBlock) (vars : List (String × Variable)),
      (mkeys vars).Nodup → (mkeys (locals_second_pass pos scopes vars)).Nodup := by
  intro scopes
  induction scopes with
  | nil =>
    intro vars h
    simpa [locals_second_pass] using h
  | cons sc rest ih =>
    intro vars h
    rw [locals_second_pass]
    split
    · exact ih _ (mkeys_mextend_nodup _ _ h)
    · exact ih _ h

theorem local_variables_at_nodup (b : AnalyzedBlock) (pos : Nat) :
    (mkeys (local_variables_at b pos)).Nodup := by
  rw [local_variables_at]
  exact locals_second_pass_nodup pos _ _
    (locals_first_pass_nodup _ _ _ (by simp [mkeys]))

theorem mfind_eq_none_of_not_mem (m : List (String × α)) (k : String)
    (h : k ∉ mkeys m) : mfind m k = none := by
  induction m with
  | nil => rfl
  | cons hd tl ih =>
    obtain ⟨k2, v2⟩ := hd
    rw [mkeys, List.map_cons, List.mem_cons] at h
    push_neg at h
    rw [mfind_cons, if_neg (fun habs => h.1 habs.symm)]
    exact ih h.2

theorem mfind_reverse_of_nodup (m : List (String × α)) (k : String)
    (h : (mkeys m).Nodup) : mfind m.reverse k = mfind m k := by
  induction m with
  | nil => rfl
  | cons hd tl ih =>
    obtain ⟨k2, v2⟩ := hd
    rw [mkeys, List.map_cons, List.nodup_cons] at h
    rw [List.reverse_cons, mfind_append]
    by_cases h2 : k2 = k
    · subst h2
      have hnone : mfind tl.reverse k2 = none := by
        apply mfind_eq_none_of_not_mem
        intro habs
        apply h.1
        have hkeys : mkeys tl.reverse = (mkeys tl).reverse := by
          simp [mkeys, List.map_reverse]
        rw [hkeys, List.mem_reverse] at habs
        exact habs
      rw [hnone, oor_none, mfind_cons, if_pos rfl]
      simp [mfind]
    · have hone : mfind [(k2, v2)] k = none := by simp [mfind, h2]
      rw [hone, oor_none_right, ih h.2, mfind_cons, if_neg h2]

/-! ### Where a variable produced by `local_variables_at` comes from -/

theorem block_size_le_of_mem (sc : AnalyzedBlock) (scopes : List AnalyzedBlock)
    (h : sc ∈ scopes) : block_size sc ≤ block_list_size scopes := by
  induction scopes with
  | nil => simp at h
  | cons hd tl ih =>
    rw [show block_list_size (hd :: tl) = block_size hd + block_list_size tl from rfl]
    rcases List.mem_cons.mp h with rfl | hmem
    · omega
    · have := ih hmem
      omega

mutual

theorem stmt_size_of_mem_flatten_one (s2 s : AnalyzedStatement) (h : s2 ∈ flatten_one s) :
    stmt_size s2 ≤ stmt_size s := by
  match s with
  | .conditions c =>
    rw [show flatten_one (.conditions c) = .conditions c :: flatten_chain c from rfl] at h
    rcases List.mem_cons.mp h with rfl | hmem
    · exact Nat.le_refl _
    · have := stmt_size_of_mem_flatten_chain s2 c hmem
      rw [show stmt_size (.conditions c) = 1 + cond_size c from rfl]
      omega
  | .declareArgs (.mk cc (.mk bstmts bspan)) =>
    rw [show flatten_one (.declareArgs (.mk cc (.mk bstmts bspan)))
      = .declareArgs (.mk cc (.mk bstmts bspan)) :: flatten_list bstmts from rfl] at h
    rcases List.mem_cons.mp h with rfl | hmem
    · exact Nat.le_refl _
    · have := stmt_size_of_mem_flatten_list s2 bstmts hmem
      rw [show stmt_size (.declareArgs (.mk cc (.mk bstmts bspan)))
        = 1 + (1 + stmt_list_size bstmts) from rfl]
      omega
  | .foreach (.mk cc lv li es (.mk bstmts bspan)) =>
    rw [show flatten_one (.foreach (.mk cc lv li es (.mk bstmts bspan)))
      = .foreach (.mk cc lv li es (.mk bstmts bspan)) :: flatten_list bstmts from rfl] at h
    rcases List.mem_cons.mp h with rfl | hmem
    · exact Nat.le_refl _
    · have := stmt_size_of_mem_flatten_list s2 bstmts hmem
      rw [show stmt_size (.foreach (.mk cc lv li es (.mk bstmts bspan)))
        = 1 + block_list_size es + (1 + stmt_list_size bstmts) from rfl]
      omega
  | .assignment a =>
    rw [show flatten_one (.assignment a) = [.assignment a] from rfl] at h
    rcases List.mem_singleton.mp h with rfl
    exact Nat.le_refl _
  | .forwardVariablesFrom f =>
    rw [show flatten_one (.forwardVariablesFrom f) = [.forwardVariablesFrom f] from rfl] at h
    rcases List.mem_singleton.mp h with rfl
    exact Nat.le_refl _
  | .importStmt i =>
    rw [show flatten_one (.importStmt i) = [.importStmt i] from rfl] at h
    rcases List.mem_singleton.mp h with rfl
    exact Nat.le_refl _
  | .target t =>
    rw [show flatten_one (.target t) = [.target t] from rfl] at h
    rcases List.mem_singleton.mp h with rfl
    exact Nat.le_refl _
  | .template t =>
    rw [show flatten_one (.template t) = [.template t] from rfl] at h
    rcases List.mem_singleton.mp h with rfl
    exact Nat.le_refl _
  | .builtinCall bc =>
    rw [show flatten_one (.builtinCall bc) = [.builtinCall bc] from rfl] at h
    rcases List.mem_singleton.mp h with rfl
    exact Nat.le_refl _
  | .error sp =>
    rw [show flatten_one (.error sp) = [.error sp] from rfl] at h
    rcases List.mem_singleton.mp h with rfl
    exact Nat.le_refl _
termination_by sizeOf s
decreasing_by all_goals (simp_wf <;> omega)

theorem stmt_size_of_mem_flatten_chain (s2 : AnalyzedStatement) (c : AnalyzedCondition)
    (h : s2 ∈ flatten_chain c) : stmt_size s2 ≤ cond_size c := by
  match c with
  | .mk cnd es (.mk tstmts tspan) none =>
    rw [show flatten_chain (.mk cnd es (.mk tstmts tspan) none) = flatten_list tstmts
      from rfl] at h
    have := stmt_size_of_mem_flatten_list s2 tstmts h
    rw [show cond_size (.mk cnd es (.mk tstmts tspan) none)
      = block_list_size es + (1 + stmt_list_size tstmts) from rfl]
    omega
  | .mk cnd es (.mk tstmts tspan) (some (.inl next)) =>
    rw [show flatten_chain (.mk cnd es (.mk tstmts tspan) (some (.inl next)))
      = flatten_list tstmts ++ flatten_chain next from rfl] at h
    rw [show cond_size (.mk cnd es (.mk tstmts tspan) (some (.inl next)))
      = block_list_size es + (1 + stmt_list_size tstmts) + cond_size next from rfl]
    rcases List.mem_append.mp h with hmem | hmem
    · have := stmt_size_of_mem_flatten_list s2 tstmts hmem
      omega
    · have := stmt_size_of_mem_flatten_chain s2 next hmem
      omega
  | .mk cnd es (.mk tstmts tspan) (some (.inr (.mk lstmts lspan))) =>
    rw [show flatten_chain (.mk cnd es (.mk tstmts tspan) (some (.inr (.mk lstmts lspan))))
      = flatten_list tstmts ++ flatten_list lstmts from rfl] at h
    rw [show cond_size (.mk cnd es (.mk tstmts tspan) (some (.inr (.mk lstmts lspan))))
      = block_list_size es + (1 + stmt_list_size tstmts) + (1 + stmt_list_size lstmts)
      from rfl]
    rcases List.mem_append.mp h with hmem | hmem
    · have := stmt_size_of_mem_flatten_list s2 tstmts hmem
      omega
    · have := stmt_size_of_mem_flatten_list s2 lstmts hmem
      omega
termination_by sizeOf c
decreasing_by all_goals (simp_wf <;> omega)

theorem stmt_size_of_mem_flatten_list (s2 : AnalyzedStatement) (l : List AnalyzedStatement)
    (h : s2 ∈ flatten_list l) : stmt_size s2 ≤ stmt_list_size l := by
  match l with
  | [] =>
    rw [show flatten_list [] = [] from rfl] at h
    simp at h
  | s :: rest =>
    rw [show flatten_list (s :: rest) = flatten_one s ++ flatten_list rest from rfl] at h
    rw [show stmt_list_size (s :: rest) = stmt_size s + stmt_list_size rest from rfl]
    rcases List.mem_append.mp h with hmem | hmem
    · have := stmt_size_of_mem_flatten_one s2 s hmem
      omega
    · have := stmt_size_of_mem_flatten_list s2 rest hmem
      omega
termination_by sizeOf l
decreasing_by all_goals (simp_wf <;> omega)

end

/-- The subscope of `b` that a position query descends into: either `b`
itself, or transitively a subscope (of a flattened statement of `b`) whose
span strictly contains the position. -/
inductive ScopeAt : AnalyzedBlock → Nat → AnalyzedBlock → Prop where
  | refl (b : AnalyzedBlock) (pos : Nat) : ScopeAt b pos b
  | step (b : AnalyzedBlock) (pos : Nat) (s : AnalyzedStatement) (sc b2 : AnalyzedBlock) :
      s ∈ flatten_list b.statements → sc ∈ s.subscopes →
      sc.span.startPos < pos → pos < sc.span.endPos →
      ScopeAt sc pos b2 → ScopeAt b pos b2

theorem locals_second_pass_origin (pos : Nat) :
    ∀ (scopes : List AnalyzedBlock) (vars : List (String × Variable))
      (name : String) (v : Variable),
      mfind (locals_second_pass pos scopes vars) name = some v →
      mfind vars name = some v ∨
        ∃ sc, sc ∈ scopes ∧ sc.span.startPos < pos ∧ pos < sc.span.endPos ∧
          mfind (local_variables_at sc pos) name = some v := by
  intro scopes
  induction scopes with
  | nil =>
    intro vars name v h
    rw [locals_second_pass] at h
    exact Or.inl h
  | cons sc rest ih =>
    intro vars name v h
    rw [locals_second_pass] at h
    split at h
    · rename_i hin
      rcases ih _ _ _ h with hm | ⟨sc2, hmem, h3, h4, h5⟩
      · rw [mfind_mextend] at hm
        cases hrev : mfind (local_variables_at sc pos).reverse name with
        | some w =>
          rw [hrev] at hm
          rw [oor_some_eq] at hm
          obtain rfl := Option.some.inj hm
          right
          refine ⟨sc, List.mem_cons_self _ _, hin.1, hin.2, ?_⟩
          rw [← mfind_reverse_of_nodup _ _ (local_variables_at_nodup sc pos)]
          exact hrev
        | none =>
          rw [hrev, oor_none] at hm
          exact Or.inl hm
      · exact Or.inr ⟨sc2, List.mem_cons_of_mem _ hmem, h3, h4, h5⟩
    · rcases ih _ _ _ h with hm | ⟨sc2, hmem, h3, h4, h5⟩
      · exact Or.inl hm
      · exact Or.inr ⟨sc2, List.mem_cons_of_mem _ hmem, h3, h4, h5⟩

/-- Every variable returned by `local_variables_at` is produced by the first
pass of the innermost subscope chain that contains the position. -/
theorem local_variables_at_origin (b : AnalyzedBlock) (pos : Nat) (name : String)
    (v : Variable) (h : mfind (local_variables_at b pos) name = some v) :
    ∃ b2, ScopeAt b pos b2 ∧
      mfind (locals_first_pass (flatten_list b2.statements) [] []) name = some v := by
  rw [local_variables_at] at h
  rcases locals_second_pass_origin pos _ _ name v h with hm | ⟨sc, hmem, h3, h4, h5⟩
  · exact ⟨b, ScopeAt.refl b pos, hm⟩
  · obtain ⟨s, hs, hsub⟩ := List.mem_flatMap.mp hmem
    obtain ⟨b2, hscope, hfind⟩ := local_variables_at_origin sc pos name v h5
    exact ⟨b2, ScopeAt.step b pos s sc b2 hs hsub h3 h4 hscope, hfind⟩
termination_by block_size b
decreasing_by
  have e1 := block_size_le_of_mem sc s.subscopes hsub
  have e2 := subscopes_size s
  have e3 := stmt_size_of_mem_flatten_list s b.statements hs
  have e4 : block_size b = 1 + stmt_list_size b.statements := by
    cases b
    rfl
  omega

/-! ### Claim C1: what `is_args` reflects -/

/-- `declare_args() { x = 1 }` followed by `x = 2` at top level
(spans in bytes). -/
def c1_body : Block :=
  .mk
    [.assignment (.mk (.identifier ⟨"x", ⟨15, 16⟩⟩)
      (.primary (.integer ⟨19, 20⟩) ⟨19, 20⟩) ⟨15, 20⟩)]
    ⟨13, 24⟩

def c1_block : Block :=
  .mk
    [.call (.mk ⟨"declare_args", ⟨0, 12⟩⟩ [] (some c1_body) ⟨0, 25⟩),
     .assignment (.mk (.identifier ⟨"x", ⟨26, 27⟩⟩)
       (.primary (.integer ⟨30, 31⟩) ⟨30, 31⟩) ⟨26, 31⟩)]
    ⟨0, 32⟩

/-- Counterexample to C1 as stated: in `declare_args() { x = 1 } x = 2`,
the variable `x` has `is_args = true` although its second assignment was
recorded while the declare-args stack was empty — `is_args` does not mean
"every assignment was recorded under a non-empty stack". -/
theorem c1_counterexample :
    Option.map Variable.isArgs (mfind (analyze_exports (fun p => p) c1_block).vars "x")
      = some true
    ∧ export_events (flattenP_list c1_block.statements) [] = [("x", true), ("x", false)]
    ∧ ¬ (∀ ev ∈ export_events (flattenP_list c1_block.statements) [], ev.2 = true) := by
  refine ⟨by decide, by decide, ?_⟩
  intro habs
  have := habs ("x", false) (by decide)
  simp at this

/-- C1 (amended): `is_args` equals the declare-args flag of the variable's
FIRST recorded assignment — for the exports pass the stored flag is exactly
the first entry of the event trace for that name, and every variable
produced by `local_variables_at` carries the first-assignment flag of the
subscope whose first pass produced it. -/
theorem is_args_eq_first_assignment_flag :
    (∀ (resolve : String → String) (b : Block) (name : String),
      Option.map Variable.isArgs (mfind (analyze_exports resolve b).vars name)
        = mfind (export_events (flattenP_list b.statements) []) name)
    ∧ (∀ (b : AnalyzedBlock) (pos : Nat) (name : String) (v : Variable),
      mfind (local_variables_at b pos) name = some v →
      ∃ b2, ScopeAt b pos b2 ∧
        mfind (locals_events (flatten_list b2.statements) []) name = some v.isArgs) := by
  constructor
  · intro resolve b name
    have h := exports_fold_events resolve (flattenP_list b.statements) []
      FileExports.empty [] events_agree_nil
    have h2 := h name
    simpa [analyze_exports] using h2
  · intro b pos name v h
    obtain ⟨b2, hscope, hfind⟩ := local_variables_at_origin b pos name v h
    refine ⟨b2, hscope, ?_⟩
    have h2 := locals_first_pass_events (flatten_list b2.statements) [] [] []
      events_agree_nil name
    rw [List.nil_append] at h2
    rw [hfind] at h2
    exact h2.symm

/-- A minimal analyzed block for the witness: the single statement
`x = 1`. -/
def c1w_assignment : Assignment :=
  .mk (.identifier ⟨"x", ⟨0, 1⟩⟩) (.primary (.integer ⟨4, 5⟩) ⟨4, 5⟩) ⟨0, 5⟩

def c1w : AnalyzedBlock :=
  .mk [.assignment (.mk c1w_assignment ⟨"x", ⟨0, 1⟩⟩ [])] ⟨0, 6⟩

def c1w_var : Variable :=
  ⟨"x", [⟨.assignment c1w_assignment, ⟨0, 1⟩, "x"⟩], false⟩

theorem c1w_found : mfind (local_variables_at c1w 0) "x" = some c1w_var := by
  rw [local_variables_at]
  simp only [c1w, AnalyzedBlock.statements, flatten_list, flatten_one, flatten_list,
    List.append_nil, List.flatMap_cons, List.flatMap_nil, AnalyzedStatement.subscopes,
    AnalyzedStatement.bodyScope, AnalyzedStatement.exprScopes, Option.toList_none,
    List.nil_append, List.append_nil]
  rw [show ∀ vars, locals_second_pass 0 [] vars = vars from fun _ => by
    rw [locals_second_pass]]
  rw [show locals_first_pass
      [.assignment (.mk c1w_assignment ⟨"x", ⟨0, 1⟩⟩ [])] [] []
    = record_assignment []
        (AnalyzedAssignment.mk c1w_assignment ⟨"x", ⟨0, 1⟩⟩ []).asVariableAssignment.primaryName
        false
        (AnalyzedAssignment.mk c1w_assignment ⟨"x", ⟨0, 1⟩⟩ []).asVariableAssignment
    from rfl]
  rfl

/-- Witness for C1 (amended): the witness block's `x` is found by
`local_variables_at`, and its `is_args` flag matches the first event of the
producing scope. -/
theorem is_args_eq_first_assignment_flag_witness :
    mfind (local_variables_at c1w 0) "x" = some c1w_var
    ∧ ∃ b2, ScopeAt c1w 0 b2 ∧
        mfind (locals_events (flatten_list b2.statements) []) "x" = some c1w_var.isArgs :=
  ⟨c1w_found, is_args_eq_first_assignment_flag.2 c1w 0 "x" c1w_var c1w_found⟩

/-! ### Claim C9: exported names never begin with an underscore -/

theorem exported_keys_record (m : List (String × Variable)) (n : String) (f : Bool)
    (va : VariableAssignment) (hP : ∀ k ∈ mkeys m, is_exported k = true)
    (hn : is_exported n = true) :
    ∀ k ∈ mkeys (record_assignment m n f va), is_exported k = true := by
  intro k hk
  rcases List.mem_cons.mp (mkeys_mupdate_subset m n _ _ hk) with rfl | hmem
  · exact hn
  · exact hP k hmem

theorem exported_keys_minsert {β : Type} (m : List (String × β)) (n : String) (v : β)
    (hP : ∀ k ∈ mkeys m, is_exported k = true) (hn : is_exported n = true) :
    ∀ k ∈ mkeys (minsert m n v), is_exported k = true := by
  intro k hk
  rcases List.mem_cons.mp (mkeys_minsert_subset m n v hk) with rfl | hmem
  · exact hn
  · exact hP k hmem

theorem exported_keys_record_forward (c : Call) (stack : List Call)
    (lst : List (String × Span)) :
    ∀ (m : List (String × Variable)), (∀ k ∈ mkeys m, is_exported k = true) →
      ∀ k ∈ mkeys (exports_record_forward c stack m lst), is_exported k = true := by
  induction lst with
  | nil =>
    intro m hP
    simpa [exports_record_forward] using hP
  | cons hd rest ih =>
    obtain ⟨raw, sp⟩ := hd
    intro m hP
    rw [exports_record_forward]
    cases hp : parse_simple_literal raw with
    | none => exact ih m hP
    | some name =>
      by_cases he : is_exported name
      · simp only [he, if_true]
        exact ih _ (exported_keys_record m name _ _ hP he)
      · simp only [he, Bool.false_eq_true, if_false]
        exact ih m hP

theorem exports_step_exported (resolve : String → String) (stack : List Call)
    (ex : FileExports) (s : Statement)
    (hv : ∀ k ∈ mkeys ex.vars, is_exported k = true)
    (ht : ∀ k ∈ mkeys ex.templates, is_exported k = true) :
    (∀ k ∈ mkeys (exports_step resolve (stack, ex) s).2.vars, is_exported k = true)
    ∧ (∀ k ∈ mkeys (exports_step resolve (stack, ex) s).2.templates,
        is_exported k = true) := by
  cases s with
  | assignment a =>
    by_cases he : is_exported a.lvalue.primaryIdentifier.name
    · constructor
      · simp only [exports_step, he, if_true]
        exact exported_keys_record _ _ _ _ hv he
      · simpa [exports_step, he] using ht
    · constructor
      · simpa [exports_step, he] using hv
      · simpa [exports_step, he] using ht
  | condition c => exact ⟨hv, ht⟩
  | error sp => exact ⟨hv, ht⟩
  | call c =>
    by_cases h1 : c.function.name = "import"
    · cases ho : c.onlyArg with
      | none =>
        exact ⟨by simpa [exports_step, h1, ho] using hv,
          by simpa [exports_step, h1, ho] using ht⟩
      | some e =>
        cases hs : e.asSimpleString <;>
          exact ⟨by simpa [exports_step, h1, ho, hs] using hv,
            by simpa [exports_step, h1, ho, hs] using ht⟩
    · by_cases h2 : c.function.name = "template"
      · cases ho : c.onlyArg with
        | none =>
          exact ⟨by simpa [exports_step, h1, h2, ho] using hv,
            by simpa [exports_step, h1, h2, ho] using ht⟩
        | some e =>
          cases hs : e.asSimpleString with
          | none =>
            exact ⟨by simpa [exports_step, h1, h2, ho, hs] using hv,
              by simpa [exports_step, h1, h2, ho, hs] using ht⟩
          | some name =>
            by_cases he : is_exported name
            · constructor
              · simpa [exports_step, h1, h2, ho, hs, he] using hv
              · simp only [exports_step, h1, h2, ho, hs, he, if_true, if_false]
                have := exported_keys_minsert ex.templates name
                  (⟨c, name⟩ : Template) ht he
                simpa [h1] using this
            · exact ⟨by simpa [exports_step, h1, h2, ho, hs, he] using hv,
                by simpa [exports_step, h1, h2, ho, hs, he] using ht⟩
      · by_cases h3 : c.function.name = "declare_args"
        · exact ⟨by simpa [exports_step, h1, h2, h3] using hv,
            by simpa [exports_step, h1, h2, h3] using ht⟩
        · by_cases h4 : c.function.name = "foreach" ∨ c.function.name = "set_defaults"
          · exact ⟨by simpa [exports_step, h1, h2, h3, h4] using hv,
              by simpa [exports_step, h1, h2, h3, h4] using ht⟩
          · by_cases h5 : c.function.name = "forward_variables_from"
            · cases ha : c.args[1]? with
              | none =>
                exact ⟨by simpa [exports_step, h1, h2, h3, h4, h5, ha] using hv,
                  by simpa [exports_step, h1, h2, h3, h4, h5, ha] using ht⟩
              | some e =>
                cases hl : e.asPrimaryList with
                | none =>
                  exact ⟨by simpa [exports_step, h1, h2, h3, h4, h5, ha, hl] using hv,
                    by simpa [exports_step, h1, h2, h3, h4, h5, ha, hl] using ht⟩
                | some values =>
                  constructor
                  · have := exported_keys_record_forward c
                      (pop_declare_args stack (Statement.call c).span.startPos)
                      (values.filterMap GExpr.asPrimaryString) ex.vars hv
                    simpa [exports_step, h1, h2, h3, h4, h5, ha, hl] using this
                  · simpa [exports_step, h1, h2, h3, h4, h5, ha, hl] using ht
            · cases ho : c.onlyArg with
              | none =>
                exact ⟨by simpa [exports_step, h1, h2, h3, h4, h5, ho] using hv,
                  by simpa [exports_step, h1, h2, h3, h4, h5, ho] using ht⟩
              | some e =>
                cases hs : e.asSimpleString <;>
                  exact ⟨by simpa [exports_step, h1, h2, h3, h4, h5, ho, hs] using hv,
                    by simpa [exports_step, h1, h2, h3, h4, h5, ho, hs] using ht⟩

theorem exports_fold_exported (resolve : String → String) (l : List Statement) :
    ∀ (stack : List Call) (ex : FileExports),
      (∀ k ∈ mkeys ex.vars, is_exported k = true) →
      (∀ k ∈ mkeys ex.templates, is_exported k = true) →
      (∀ k ∈ mkeys (exports_fold resolve l (stack, ex)).2.vars, is_exported k = true)
      ∧ (∀ k ∈ mkeys (exports_fold resolve l (stack, ex)).2.templates,
          is_exported k = true) := by
  induction l with
  | nil =>
    intro stack ex hv ht
    exact ⟨hv, ht⟩
  | cons s rest ih =>
    intro stack ex hv ht
    rw [exports_fold]
    obtain ⟨hv2, ht2⟩ := exports_step_exported resolve stack ex s hv ht
    have := ih (exports_step resolve (stack, ex) s).1 (exports_step resolve (stack, ex) s).2
      hv2 ht2
    simpa [Prod.mk.eta] using this

/-- C9: `is_exported` is exactly "does not start with an underscore", and no
key of `exports.variables` or `exports.templates` begins with an
underscore. -/
theorem exports_keys_never_underscore :
    (∀ name : String, is_exported name = !(starts_with_underscore name))
    ∧ ∀ (resolve : String → String) (b : Block) (name : String),
      (name ∈ mkeys (analyze_exports resolve b).vars
        ∨ name ∈ mkeys (analyze_exports resolve b).templates) →
      ¬ (starts_with_underscore name = true) := by
  constructor
  · intro name
    rfl
  · intro resolve b name hmem
    obtain ⟨hv, ht⟩ := exports_fold_exported resolve (flattenP_list b.statements) []
      FileExports.empty (by simp [FileExports.empty, mkeys])
      (by simp [FileExports.empty, mkeys])
    intro habs
    rcases hmem with hmem | hmem
    · have := hv name (by simpa [analyze_exports] using hmem)
      rw [is_exported, habs] at this
      simp at this
    · have := ht name (by simpa [analyze_exports] using hmem)
      rw [is_exported, habs] at this
      simp at this

/-- Witness for C9: in the C1 example file, `x` is an exports key and indeed
does not start with an underscore. -/
theorem exports_keys_never_underscore_witness :
    ("x" ∈ mkeys (analyze_exports (fun p => p) c1_block).vars
      ∨ "x" ∈ mkeys (analyze_exports (fun p => p) c1_block).templates)
    ∧ ¬ (starts_with_underscore "x" = true) :=
  ⟨by decide,
    exports_keys_never_underscore.2 (fun p => p) c1_block "x" (by decide)⟩


/-! ### Claim C8: statement classification of non-builtin calls -/

/-- C8: a top-level call whose function name is none of the classifier names,
with exactly one argument and a body block, is classified `Target`; a
`set_defaults` call with one argument and a body is classified
`BuiltinCall`. -/
theorem classify_target_and_set_defaults :
    (∀ (resolve : String → String) (fn : Identifier) (a : GExpr) (b : Block) (sp : Span),
      fn.name ∉ ([DECLARE_ARGS, FOREACH, FORWARD_VARIABLES_FROM, IMPORT,
        SET_DEFAULTS, TEMPLATE] : List String) →
      analyze_call resolve (.mk fn [a] (some b) sp)
        = .target (.mk (.mk fn [a] (some b) sp) a
            (analyze_expr_list resolve [a]) (analyze_block resolve b)))
    ∧ (∀ (resolve : String → String) (a : GExpr) (b : Block) (sp sp2 : Span),
      analyze_call resolve (.mk ⟨"set_defaults", sp2⟩ [a] (some b) sp)
        = .builtinCall (.mk (.mk ⟨"set_defaults", sp2⟩ [a] (some b) sp)
            (analyze_expr_list resolve [a]) (some (analyze_block resolve b)))) := by
  constructor
  · intro resolve fn a b sp hname
    simp only [DECLARE_ARGS, FOREACH, FORWARD_VARIABLES_FROM, IMPORT, SET_DEFAULTS,
      TEMPLATE, List.mem_cons, List.mem_singleton, not_or] at hname
    obtain ⟨hn1, hn2, hn3, hn4, hn5, hn6, _⟩ := hname
    rw [analyze_call]
    simp only [DECLARE_ARGS, FOREACH, SET_DEFAULTS, TEMPLATE]
    rw [if_neg hn1, if_neg hn2, if_neg hn6, if_pos hn5]
    rfl
    intro a0 a1 h
    simp at h
  · intro resolve a b sp sp2
    rw [analyze_call]
    simp only [DECLARE_ARGS, FOREACH, SET_DEFAULTS, TEMPLATE]
    rw [if_neg (by decide : ¬ ("set_defaults" : String) = "declare_args"),
      if_neg (by decide : ¬ ("set_defaults" : String) = "foreach"),
      if_neg (by decide : ¬ ("set_defaults" : String) = "template"),
      if_neg (by simp : ¬ ¬ ("set_defaults" : String) = "set_defaults")]
    intro a0 a1 h
    simp at h

/-- Witness for C8: a `static_library("foo") { }` call is classified as a
target. -/
theorem classify_target_and_set_defaults_witness :
    (("static_library" : String) ∉ ([DECLARE_ARGS, FOREACH, FORWARD_VARIABLES_FROM,
      IMPORT, SET_DEFAULTS, TEMPLATE] : List String))
    ∧ analyze_call (fun p => p)
        (.mk ⟨"static_library", ⟨0, 14⟩⟩ [.primary (.strLit "foo" ⟨15, 20⟩) ⟨15, 20⟩]
          (some (.mk [] ⟨22, 24⟩)) ⟨0, 24⟩)
      = .target (.mk
          (.mk ⟨"static_library", ⟨0, 14⟩⟩ [.primary (.strLit "foo" ⟨15, 20⟩) ⟨15, 20⟩]
            (some (.mk [] ⟨22, 24⟩)) ⟨0, 24⟩)
          (.primary (.strLit "foo" ⟨15, 20⟩) ⟨15, 20⟩)
          (analyze_expr_list (fun p => p) [.primary (.strLit "foo" ⟨15, 20⟩) ⟨15, 20⟩])
          (analyze_block (fun p => p) (.mk [] ⟨22, 24⟩))) :=
  ⟨by decide,
    classify_target_and_set_defaults.1 (fun p => p) ⟨"static_library", ⟨0, 14⟩⟩
      (.primary (.strLit "foo" ⟨15, 20⟩) ⟨15, 20⟩) (.mk [] ⟨22, 24⟩) ⟨0, 24⟩ (by decide)⟩

/-! ### Claim C5: position queries and the inlined `foreach` body -/

/-- The parsed file `foreach(i, [1, 2]) { x = i }`. -/
def c5_block : Block :=
  .mk
    [.call (.mk ⟨"foreach", ⟨0, 7⟩⟩
      [.primary (.identifier ⟨"i", ⟨8, 9⟩⟩) ⟨8, 9⟩,
       .primary (.listLit [.primary (.integer ⟨12, 13⟩) ⟨12, 13⟩,
         .primary (.integer ⟨15, 16⟩) ⟨15, 16⟩] ⟨11, 17⟩) ⟨11, 17⟩]
      (some (.mk
        [.assignment (.mk (.identifier ⟨"x", ⟨21, 22⟩⟩)
          (.primary (.identifier ⟨"i", ⟨25, 26⟩⟩) ⟨25, 26⟩) ⟨21, 26⟩)]
        ⟨19, 28⟩))
      ⟨0, 28⟩)]
    ⟨0, 29⟩

/-- The semantic tree the analyzer produces for `c5_block`. -/
def c5a : AnalyzedBlock :=
  .mk
    [.foreach (.mk
      (.mk ⟨"foreach", ⟨0, 7⟩⟩
        [.primary (.identifier ⟨"i", ⟨8, 9⟩⟩) ⟨8, 9⟩,
         .primary (.listLit [.primary (.integer ⟨12, 13⟩) ⟨12, 13⟩,
           .primary (.integer ⟨15, 16⟩) ⟨15, 16⟩] ⟨11, 17⟩) ⟨11, 17⟩]
        (some (.mk
          [.assignment (.mk (.identifier ⟨"x", ⟨21, 22⟩⟩)
            (.primary (.identifier ⟨"i", ⟨25, 26⟩⟩) ⟨25, 26⟩) ⟨21, 26⟩)]
          ⟨19, 28⟩))
        ⟨0, 28⟩)
      ⟨"i", ⟨8, 9⟩⟩
      (.primary (.listLit [.primary (.integer ⟨12, 13⟩) ⟨12, 13⟩,
        .primary (.integer ⟨15, 16⟩) ⟨15, 16⟩] ⟨11, 17⟩) ⟨11, 17⟩)
      []
      (.mk
        [.assignment (.mk
          (.mk (.identifier ⟨"x", ⟨21, 22⟩⟩)
            (.primary (.identifier ⟨"i", ⟨25, 26⟩⟩) ⟨25, 26⟩) ⟨21, 26⟩)
          ⟨"x", ⟨21, 22⟩⟩ [])]
        ⟨19, 28⟩))]
    ⟨0, 29⟩

theorem c5a_eq : analyze_block (fun p => p) c5_block = c5a := by
  rw [c5_block, analyze_block]
  rw [analyze_statements, analyze_call]
  simp only [analyze_block, analyze_statements, analyze_expr, analyze_primary,
    analyze_expr_list, GExpr.asPrimaryIdentifier, List.append_nil, c5a]
  rfl

theorem c5_subscopes_empty :
    (flatten_list c5a.statements).flatMap AnalyzedStatement.subscopes = [] := rfl

/-- Both `i` and `x` are collected by the first pass of the enclosing scope,
at any position: the `foreach` body is inlined by the top-level traversal. -/
theorem c5_locals (pos : Nat) :
    (mfind (local_variables_at c5a pos) "i").isSome = true
    ∧ (mfind (local_variables_at c5a pos) "x").isSome = true := by
  rw [local_variables_at, c5_subscopes_empty]
  rw [show ∀ vars, locals_second_pass pos [] vars = vars from fun _ => by
    rw [locals_second_pass]]
  exact ⟨rfl, rfl⟩

/-- Counterexample to C5 as stated: at position 100 — strictly outside the
`foreach` call's span `[0, 28)` — the locals still contain both `i` and
`x`. -/
theorem c5_counterexample :
    ((29 : Nat) ≤ 100)
    ∧ (mfind (local_variables_at (analyze_block (fun p => p) c5_block) 100) "i").isSome
        = true
    ∧ (mfind (local_variables_at (analyze_block (fun p => p) c5_block) 100) "x").isSome
        = true := by
  refine ⟨by decide, ?_, ?_⟩ <;>
    · rw [c5a_eq]
      first
        | exact (c5_locals 100).1
        | exact (c5_locals 100).2

theorem oor_assoc (a b c : Option α) :
    oor (oor a b) c = oor a (oor b c) := by
  cases a <;> rfl

/-- The merged subscope definitions, looked up with the priority produced by
repeated `extend`: a later subscope in the list outranks an earlier one. -/
def scopes_lookup (pos : Nat) (name : String) :
    List AnalyzedBlock → Option Variable
  | [] => none
  | sc :: rest =>
    oor (scopes_lookup pos name rest) (mfind (local_variables_at sc pos) name)

/-- Lookup characterization of the second pass: exactly the subscopes whose
span strictly contains `pos` are merged (the others are filtered out), and
their definitions override the accumulated map. -/
theorem locals_second_pass_lookup (pos : Nat) (name : String) :
    ∀ (scopes : List AnalyzedBlock) (vars : List (String × Variable)),
      mfind (locals_second_pass pos scopes vars) name
        = oor
          (scopes_lookup pos name (scopes.filter
            (fun sc2 => decide
              (sc2.span.startPos < pos ∧ pos < sc2.span.endPos))))
          (mfind vars name) := by
  intro scopes
  induction scopes with
  | nil =>
    intro vars
    rw [locals_second_pass]
    rfl
  | cons sc rest ih =>
    intro vars
    rw [locals_second_pass]
    by_cases h : sc.span.startPos < pos ∧ pos < sc.span.endPos
    · rw [if_pos h, ih, mfind_mextend,
        mfind_reverse_of_nodup _ _ (local_variables_at_nodup sc pos)]
      rw [show (sc :: rest).filter
          (fun sc2 => decide
            (sc2.span.startPos < pos ∧ pos < sc2.span.endPos))
        = sc :: rest.filter
          (fun sc2 => decide
            (sc2.span.startPos < pos ∧ pos < sc2.span.endPos))
        from by simp [List.filter_cons, h]]
      rw [show scopes_lookup pos name (sc :: rest.filter
          (fun sc2 => decide
            (sc2.span.startPos < pos ∧ pos < sc2.span.endPos)))
        = oor (scopes_lookup pos name (rest.filter
            (fun sc2 => decide
              (sc2.span.startPos < pos ∧ pos < sc2.span.endPos))))
          (mfind (local_variables_at sc pos) name) from rfl]
      rw [oor_assoc]
    · rw [if_neg h, ih]
      rw [show (sc :: rest).filter
          (fun sc2 => decide
            (sc2.span.startPos < pos ∧ pos < sc2.span.endPos))
        = rest.filter
          (fun sc2 => decide
            (sc2.span.startPos < pos ∧ pos < sc2.span.endPos))
        from by simp [List.filter_cons, h]]

/-- The parsed file `x = 2 static_library("t") { x = 1 }`: the target body
is a genuine subscope, so a position inside it exercises the recursion. -/
def c5b_block : Block :=
  .mk
    [.assignment (.mk (.identifier ⟨"x", ⟨0, 1⟩⟩)
      (.primary (.integer ⟨4, 5⟩) ⟨4, 5⟩) ⟨0, 5⟩),
     .call (.mk ⟨"static_library", ⟨7, 21⟩⟩
       [.primary (.strLit "t" ⟨22, 25⟩) ⟨22, 25⟩]
       (some (.mk
         [.assignment (.mk (.identifier ⟨"x", ⟨29, 30⟩⟩)
           (.primary (.integer ⟨33, 34⟩) ⟨33, 34⟩) ⟨29, 34⟩)]
         ⟨27, 36⟩))
       ⟨7, 36⟩)]
    ⟨0, 37⟩

/-- The analyzed target body of `c5b_block`. -/
def c5b_body : AnalyzedBlock :=
  .mk
    [.assignment (.mk
      (.mk (.identifier ⟨"x", ⟨29, 30⟩⟩)
        (.primary (.integer ⟨33, 34⟩) ⟨33, 34⟩) ⟨29, 34⟩)
      ⟨"x", ⟨29, 30⟩⟩ [])]
    ⟨27, 36⟩

/-- The semantic tree the analyzer produces for `c5b_block`. -/
def c5b : AnalyzedBlock :=
  .mk
    [.assignment (.mk
        (.mk (.identifier ⟨"x", ⟨0, 1⟩⟩)
          (.primary (.integer ⟨4, 5⟩) ⟨4, 5⟩) ⟨0, 5⟩)
        ⟨"x", ⟨0, 1⟩⟩ []),
     .target (.mk
        (.mk ⟨"static_library", ⟨7, 21⟩⟩
          [.primary (.strLit "t" ⟨22, 25⟩) ⟨22, 25⟩]
          (some (.mk
            [.assignment (.mk (.identifier ⟨"x", ⟨29, 30⟩⟩)
              (.primary (.integer ⟨33, 34⟩) ⟨33, 34⟩) ⟨29, 34⟩)]
            ⟨27, 36⟩))
          ⟨7, 36⟩)
        (.primary (.strLit "t" ⟨22, 25⟩) ⟨22, 25⟩)
        []
        c5b_body)]
    ⟨0, 37⟩

theorem c5b_eq : analyze_block (fun p => p) c5b_block = c5b := by
  rw [c5b_block, analyze_block]
  rw [analyze_statements, analyze_statements, analyze_call]
  · simp only [analyze_block, analyze_statements, analyze_expr,
      analyze_primary, analyze_expr_list, Call.onlyArg, List.append_nil,
      c5b, c5b_body]
    rfl
  · intro a0 a1 h
    simp at h

/-- The variable the body's first pass produces for `x` (assignment at
span [29, 34)). -/
def c5b_inner_var : Variable :=
  ⟨"x", [⟨.assignment (.mk (.identifier ⟨"x", ⟨29, 30⟩⟩)
    (.primary (.integer ⟨33, 34⟩) ⟨33, 34⟩) ⟨29, 34⟩), ⟨29, 30⟩, "x"⟩], false⟩

/-- The variable the outer first pass produces for `x` (assignment at
span [0, 5)). -/
def c5b_outer_var : Variable :=
  ⟨"x", [⟨.assignment (.mk (.identifier ⟨"x", ⟨0, 1⟩⟩)
    (.primary (.integer ⟨4, 5⟩) ⟨4, 5⟩) ⟨0, 5⟩), ⟨0, 1⟩, "x"⟩], false⟩

/-- At position 30 — strictly inside the target body [27, 36) — the query
recurses into the body and the inner `x` replaces the outer one. -/
theorem c5b_locals_at_30 :
    local_variables_at c5b 30 = [("x", c5b_inner_var)] := by
  rw [local_variables_at]
  rw [show (flatten_list c5b.statements).flatMap AnalyzedStatement.subscopes
    = [c5b_body] from rfl]
  rw [show locals_first_pass (flatten_list c5b.statements) [] []
    = [("x", c5b_outer_var)] from rfl]
  rw [locals_second_pass]
  rw [if_pos (by decide)]
  rw [show local_variables_at c5b_body 30 = [("x", c5b_inner_var)] from by
    rw [local_variables_at]
    rw [show (flatten_list c5b_body.statements).flatMap
      AnalyzedStatement.subscopes = [] from rfl]
    rw [locals_second_pass]
    rfl]
  rw [locals_second_pass]
  rfl

/-- C5 (amended): the result of `local_variables_at` looks names up in the
subscopes whose span strictly contains the position — and only those — with
the merged inner definitions overriding the enclosing scope's own first
pass (among siblings, the later merge wins); when no subscope of a
flattened statement strictly contains the position, the result is exactly
the first pass; and for `foreach(i, [1, 2]) { x = i }` every position,
inside or outside the body, sees both `i` and `x`, because the `foreach`
body is inlined into the enclosing scope. -/
theorem locals_recursion_iff_inside :
    (∀ (b : AnalyzedBlock) (pos : Nat) (name : String),
      mfind (local_variables_at b pos) name
        = oor
          (scopes_lookup pos name
            (((flatten_list b.statements).flatMap
                AnalyzedStatement.subscopes).filter
              (fun sc2 => decide
                (sc2.span.startPos < pos ∧ pos < sc2.span.endPos))))
          (mfind (locals_first_pass (flatten_list b.statements) [] []) name))
    ∧ (∀ (b : AnalyzedBlock) (pos : Nat),
      (∀ s ∈ flatten_list b.statements, ∀ sc ∈ s.subscopes,
        ¬ (sc.span.startPos < pos ∧ pos < sc.span.endPos)) →
      local_variables_at b pos = locals_first_pass (flatten_list b.statements) [] [])
    ∧ (∀ pos : Nat,
      (mfind (local_variables_at c5a pos) "i").isSome = true
      ∧ (mfind (local_variables_at c5a pos) "x").isSome = true) := by
  refine ⟨?_, ?_, c5_locals⟩
  · intro b pos name
    rw [local_variables_at]
    exact locals_second_pass_lookup pos name _ _
  · intro b pos hout
    rw [local_variables_at]
    have : ∀ (scopes : List AnalyzedBlock) (vars : List (String × Variable)),
        (∀ sc ∈ scopes, ¬ (sc.span.startPos < pos ∧ pos < sc.span.endPos)) →
        locals_second_pass pos scopes vars = vars := by
      intro scopes
      induction scopes with
      | nil =>
        intro vars _
        rw [locals_second_pass]
      | cons sc rest ih =>
        intro vars hsc
        rw [locals_second_pass]
        rw [if_neg (hsc sc (List.mem_cons_self _ _))]
        exact ih _ (fun x hx => hsc x (List.mem_cons_of_mem _ hx))
    apply this
    intro sc hsc
    obtain ⟨s, hs, hsub⟩ := List.mem_flatMap.mp hsc
    exact hout s hs sc hsub

/-- Witness for C5 (amended): at position 30 the target body of
`x = 2 static_library("t") { x = 1 }` strictly contains the position, the
lookup characterization applies, and the merged result maps `x` to the
body's definition (primary span [29, 30)) instead of the outer one
(primary span [0, 1)); at position 100 of the `foreach` example no subscope
contains the position and the result is exactly the first pass. -/
theorem locals_recursion_iff_inside_witness :
    (c5b_body.span.startPos < 30 ∧ 30 < c5b_body.span.endPos)
    ∧ mfind (local_variables_at (analyze_block (fun p => p) c5b_block) 30) "x"
        = oor
          (scopes_lookup 30 "x"
            (((flatten_list c5b.statements).flatMap
                AnalyzedStatement.subscopes).filter
              (fun sc2 => decide
                (sc2.span.startPos < 30 ∧ 30 < sc2.span.endPos))))
          (mfind (locals_first_pass (flatten_list c5b.statements) [] []) "x")
    ∧ local_variables_at (analyze_block (fun p => p) c5b_block) 30
        = [("x", c5b_inner_var)]
    ∧ c5b_inner_var.assignments.map (fun va => va.primaryVariable) = [⟨29, 30⟩]
    ∧ c5b_outer_var.assignments.map (fun va => va.primaryVariable) = [⟨0, 1⟩]
    ∧ mfind (locals_first_pass (flatten_list c5b.statements) [] []) "x"
        = some c5b_outer_var
    ∧ (∀ s ∈ flatten_list c5a.statements, ∀ sc ∈ s.subscopes,
        ¬ (sc.span.startPos < 100 ∧ 100 < sc.span.endPos))
    ∧ local_variables_at c5a 100
        = locals_first_pass (flatten_list c5a.statements) [] [] :=
  ⟨by decide,
   by
     rw [c5b_eq]
     exact locals_recursion_iff_inside.1 c5b 30 "x",
   by
     rw [c5b_eq]
     exact c5b_locals_at_30,
   by decide,
   by decide,
   rfl,
   by decide,
   locals_recursion_iff_inside.2.1 c5a 100 (by decide)⟩

/-! ### Undefined-identifier pass (src/diagnostics/undefined.rs)

`importVars path` abstracts `analyzer.analyze_files(path).variables.keys()`,
the exported variable names of the import's transitive environment, used by
the `Import` arm of the tracker update. -/

/-- spec-modelled: the constant `DIAGNOSTIC_CODE_UNDEFINED`
(crate::diagnostics, not present in src/); spec §4.8 fixes the diagnostic
payload code to "undefined". -/
@[simp] def DIAGNOSTIC_CODE_UNDEFINED : String := "undefined"

/-- spec-modelled: the builtin-name constant `DEFINED`
(crate::common::builtins, not present in src/); spec §4.8: calls to the
builtin `defined(...)` are not descended into. -/
@[simp] def DEFINED : String := "defined"

/-- One undefined-identifier diagnostic: the code, the identifier name
carried in the data payload, and the identifier's span. -/
structure Diag where
  code : String
  name : String
  span : Span

/-- `EnvironmentTracker` (src/diagnostics/undefined.rs): an
over-approximated set of defined names, or the permissive untrackable
state. -/
inductive EnvironmentTracker where
  | ok (env : List String)
  | untrackable

/-- `EnvironmentTracker::may_contain`. -/
def EnvironmentTracker.may_contain : EnvironmentTracker → String → Bool
  | .ok env, name => env.contains name
  | .untrackable, _ => true

/-- `EnvironmentTracker::insert`. -/
def EnvironmentTracker.insertName :
    EnvironmentTracker → String → EnvironmentTracker
  | .ok env, name => .ok (name :: env)
  | .untrackable, _ => .untrackable

/-- `EnvironmentTracker::set_untrackable`. -/
def EnvironmentTracker.set_untrackable :
    EnvironmentTracker → EnvironmentTracker :=
  fun _ => .untrackable

/-- `Extend<&str> for EnvironmentTracker`: a no-op in the untrackable
state. -/
def EnvironmentTracker.extendNames :
    EnvironmentTracker → List String → EnvironmentTracker
  | .ok env, names => .ok (names ++ env)
  | .untrackable, _ => .untrackable

/-- `Identifier::collect_undefined_identifiers`: record one diagnostic when
the tracker cannot contain the name. -/
def ident_undef_diags (tracker : EnvironmentTracker) (i : Identifier) :
    List Diag :=
  if tracker.may_contain i.name then []
  else [⟨DIAGNOSTIC_CODE_UNDEFINED, i.name, i.span⟩]

mutual

/-- `Expr::collect_undefined_identifiers` (src/diagnostics/undefined.rs). -/
def collect_undef_expr (tracker : EnvironmentTracker) (e : GExpr) :
    List Diag :=
  match e with
  | .primary p _ => collect_undef_primary tracker p
  | .unary inner _ => collect_undef_expr tracker inner
  | .binary lhs rhs _ =>
    collect_undef_expr tracker lhs ++ collect_undef_expr tracker rhs
termination_by sizeOf e
decreasing_by all_goals (simp_wf <;> omega)

/-- `PrimaryExpr::collect_undefined_identifiers`: the function identifier of
a call is always checked, but the arguments of the builtin `defined` are
skipped; block expressions are not descended into here. -/
def collect_undef_primary (tracker : EnvironmentTracker) (p : PrimaryExpr) :
    List Diag :=
  match p with
  | .identifier i => ident_undef_diags tracker i
  | .callExpr (.mk fn args blockOpt sp) =>
    ident_undef_diags tracker fn ++
      if fn.name = DEFINED then [] else collect_undef_expr_list tracker args
  | .arrayAccess (.mk arr idx sp) =>
    ident_undef_diags tracker arr ++ collect_undef_expr tracker idx
  | .scopeAccess (.mk sc mem sp) => ident_undef_diags tracker sc
  | .parenExpr inner _ => collect_undef_expr tracker inner
  | .listLit values _ => collect_undef_expr_list tracker values
  | .blockExpr _ => []
  | .integer _ => []
  | .strLit _ _ => []
  | .error _ => []
termination_by sizeOf p
decreasing_by all_goals (simp_wf <;> omega)

/-- The argument loops of the expression walker. -/
def collect_undef_expr_list (tracker : EnvironmentTracker) :
    List GExpr → List Diag
  | [] => []
  | e :: rest =>
    collect_undef_expr tracker e ++ collect_undef_expr_list tracker rest
termination_by l => sizeOf l
decreasing_by all_goals (simp_wf <;> omega)

end

/-- Parser accessor: the condition expression of a condition node. -/
def Condition.condition : Condition → GExpr
  | .mk c _ _ _ => c

/-- The `Conditions` arm of the statement loop: every condition expression
in the else-if chain is walked with the current tracker. -/
def cond_chain_diags (tracker : EnvironmentTracker) (c : AnalyzedCondition) :
    List Diag :=
  match c with
  | .mk cnd _ _ none => collect_undef_expr tracker cnd.condition
  | .mk cnd _ _ (some (.inr _)) => collect_undef_expr tracker cnd.condition
  | .mk cnd _ _ (some (.inl next)) =>
    collect_undef_expr tracker cnd.condition ++ cond_chain_diags tracker next
termination_by sizeOf c
decreasing_by all_goals (simp_wf <;> omega)

/-- The `if let LValue::ArrayAccess` part of the assignment arm: only the
index expression of an array-access left-hand side is walked. -/
def lvalue_index_diags (tracker : EnvironmentTracker) : LValue → List Diag
  | .arrayAccess (.mk _ idx _) => collect_undef_expr tracker idx
  | _ => []

/-- The expression-diagnostics part of one flattened statement (first match
in `AnalyzedBlock::collect_undefined_identifiers`). -/
def stmt_expr_diags (tracker : EnvironmentTracker) :
    AnalyzedStatement → List Diag
  | .assignment (.mk a _ _) =>
    lvalue_index_diags tracker a.lvalue ++ collect_undef_expr tracker a.rvalue
  | .conditions c => cond_chain_diags tracker c
  | .foreach (.mk _ _ loopItems _ _) => collect_undef_expr tracker loopItems
  | .forwardVariablesFrom (.mk call _ _) =>
    collect_undef_expr_list tracker call.args
  | .target (.mk call _ _ _) => collect_undef_expr_list tracker call.args
  | .template (.mk call _ _ _) => collect_undef_expr_list tracker call.args
  | .builtinCall (.mk call _ _) =>
    ident_undef_diags tracker call.function ++
      collect_undef_expr_list tracker call.args
  | .declareArgs _ => []
  | .importStmt _ => []
  | .error _ => []

/-- The tracker update after one flattened statement (last match in
`AnalyzedBlock::collect_undefined_identifiers`). -/
def update_tracker (importVars : String → List String)
    (tracker : EnvironmentTracker) :
    AnalyzedStatement → EnvironmentTracker
  | .assignment (.mk a _ _) =>
    match a.lvalue with
    | .identifier i => tracker.insertName i.name
    | _ => tracker
  | .foreach (.mk _ loopVariable _ _ _) =>
    tracker.insertName loopVariable.name
  | .forwardVariablesFrom (.mk _ includes _) =>
    match includes.asSimpleStringList with
    | some incs => incs.foldl EnvironmentTracker.insertName tracker
    | none => tracker.set_untrackable
  | .importStmt (.mk _ _ path) => tracker.extendNames (importVars path)
  | .conditions _ => tracker
  | .declareArgs _ => tracker
  | .target _ => tracker
  | .template _ => tracker
  | .builtinCall _ => tracker
  | .error _ => tracker

theorem block_list_size_cons (x : AnalyzedBlock) (l : List AnalyzedBlock) :
    block_list_size (x :: l) = block_size x + block_list_size l := rfl

theorem block_size_eq (b : AnalyzedBlock) :
    block_size b = 1 + stmt_list_size b.statements := by
  cases b
  rfl

mutual

/-- `AnalyzedBlock::collect_undefined_identifiers`: walk the flattened
top-level statements; only the diagnostics escape to the caller (subscopes
run on a clone of the tracker). -/
def undef_block (importVars : String → List String)
    (tracker : EnvironmentTracker) (b : AnalyzedBlock) : List Diag :=
  (undef_stmts importVars tracker (flatten_list b.statements)).2
termination_by 2 * block_size b
decreasing_by
  simp_wf
  have h1 := wlist_flatten_list b.statements
  have h3 : block_size b = 1 + stmt_list_size b.statements := by
    cases b
    rfl
  omega

/-- The statement loop: expression diagnostics with the current tracker,
then subscopes with a cloned tracker, then the tracker update; returns the
tracker after the whole list together with the diagnostics. -/
def undef_stmts (importVars : String → List String)
    (tracker : EnvironmentTracker) :
    List AnalyzedStatement → EnvironmentTracker × List Diag
  | [] => (tracker, [])
  | s :: rest =>
    let d1 := stmt_expr_diags tracker s
    let d2 := undef_scopes importVars tracker s.subscopes
    let r := undef_stmts importVars (update_tracker importVars tracker s) rest
    (r.1, d1 ++ d2 ++ r.2)
termination_by l => 2 * wlist l + 1
decreasing_by
  all_goals rw [show wlist (s :: rest) = wsize s + wlist rest from rfl]
  · unfold wsize
    omega
  · unfold wsize
    omega

/-- The subscope loop: each subscope is processed with a clone of the
current tracker, so its mutations do not escape. -/
def undef_scopes (importVars : String → List String)
    (tracker : EnvironmentTracker) : List AnalyzedBlock → List Diag
  | [] => []
  | sc :: rest =>
    undef_block importVars tracker sc ++ undef_scopes importVars tracker rest
termination_by scopes => 2 * block_list_size scopes + 1
decreasing_by
  all_goals simp only [block_list_size_cons, block_size_eq]
  all_goals omega

end

theorem foldl_insertName_untrackable (l : List String) :
    l.foldl EnvironmentTracker.insertName EnvironmentTracker.untrackable
      = EnvironmentTracker.untrackable := by
  induction l with
  | nil => rfl
  | cons a rest ih =>
    simpa [List.foldl_cons, EnvironmentTracker.insertName] using ih

theorem update_tracker_untrackable (importVars : String → List String)
    (s : AnalyzedStatement) :
    update_tracker importVars EnvironmentTracker.untrackable s
      = EnvironmentTracker.untrackable := by
  cases s with
  | assignment a =>
    cases a with
    | mk a2 pv es =>
      simp only [update_tracker]
      cases a2.lvalue <;> simp [EnvironmentTracker.insertName]
  | foreach f =>
    cases f
    simp [update_tracker, EnvironmentTracker.insertName]
  | forwardVariablesFrom f =>
    cases f with
    | mk call includes es =>
      simp only [update_tracker]
      cases h : includes.asSimpleStringList with
      | some incs => simp [foldl_insertName_untrackable]
      | none => simp [EnvironmentTracker.set_untrackable]
  | importStmt i =>
    cases i
    simp [update_tracker, EnvironmentTracker.extendNames]
  | conditions c => simp [update_tracker]
  | declareArgs d => simp [update_tracker]
  | target t => simp [update_tracker]
  | template t => simp [update_tracker]
  | builtinCall b => simp [update_tracker]
  | error sp => simp [update_tracker]

theorem ident_undef_diags_untrackable (i : Identifier) :
    ident_undef_diags EnvironmentTracker.untrackable i = [] := rfl

mutual

theorem collect_undef_expr_untrackable (e : GExpr) :
    collect_undef_expr EnvironmentTracker.untrackable e = [] := by
  match e with
  | .primary p sp =>
    rw [collect_undef_expr]
    exact collect_undef_primary_untrackable p
  | .unary inner sp =>
    rw [collect_undef_expr]
    exact collect_undef_expr_untrackable inner
  | .binary lhs rhs sp =>
    rw [collect_undef_expr]
    rw [collect_undef_expr_untrackable lhs, collect_undef_expr_untrackable rhs]
    rfl
termination_by sizeOf e
decreasing_by all_goals (simp_wf <;> omega)

theorem collect_undef_primary_untrackable (p : PrimaryExpr) :
    collect_undef_primary EnvironmentTracker.untrackable p = [] := by
  match p with
  | .identifier i =>
    rw [collect_undef_primary]
    exact ident_undef_diags_untrackable i
  | .callExpr (.mk fn args blockOpt sp) =>
    rw [collect_undef_primary]
    rw [ident_undef_diags_untrackable fn]
    by_cases h : fn.name = DEFINED
    · rw [if_pos h]
      rfl
    · rw [if_neg h, collect_undef_expr_list_untrackable args]
      rfl
  | .arrayAccess (.mk arr idx sp) =>
    rw [collect_undef_primary]
    rw [ident_undef_diags_untrackable arr, collect_undef_expr_untrackable idx]
    rfl
  | .scopeAccess (.mk sc mem sp) =>
    rw [collect_undef_primary]
    exact ident_undef_diags_untrackable sc
  | .parenExpr inner sp =>
    rw [collect_undef_primary]
    exact collect_undef_expr_untrackable inner
  | .listLit values sp =>
    rw [collect_undef_primary]
    exact collect_undef_expr_list_untrackable values
  | .blockExpr b => rw [collect_undef_primary]
  | .integer sp => rw [collect_undef_primary]
  | .strLit raw sp => rw [collect_undef_primary]
  | .error sp => rw [collect_undef_primary]
termination_by sizeOf p
decreasing_by all_goals (simp_wf <;> omega)

theorem collect_undef_expr_list_untrackable (l : List GExpr) :
    collect_undef_expr_list EnvironmentTracker.untrackable l = [] := by
  match l with
  | [] => rw [collect_undef_expr_list]
  | e :: rest =>
    rw [collect_undef_expr_list]
    rw [collect_undef_expr_untrackable e,
      collect_undef_expr_list_untrackable rest]
    rfl
termination_by sizeOf l
decreasing_by all_goals (simp_wf <;> omega)

end

theorem cond_chain_diags_untrackable (c : AnalyzedCondition) :
    cond_chain_diags EnvironmentTracker.untrackable c = [] := by
  match c with
  | .mk cnd es tb none =>
    rw [cond_chain_diags]
    exact collect_undef_expr_untrackable cnd.condition
  | .mk cnd es tb (some (.inr eb)) =>
    rw [cond_chain_diags]
    exact collect_undef_expr_untrackable cnd.condition
  | .mk cnd es tb (some (.inl next)) =>
    rw [cond_chain_diags]
    rw [collect_undef_expr_untrackable cnd.condition,
      cond_chain_diags_untrackable next]
    rfl
termination_by sizeOf c
decreasing_by all_goals (simp_wf <;> omega)

theorem lvalue_index_diags_untrackable (lv : LValue) :
    lvalue_index_diags EnvironmentTracker.untrackable lv = [] := by
  cases lv with
  | identifier i => rfl
  | arrayAccess a =>
    cases a with
    | mk arr idx sp =>
      simp [lvalue_index_diags, collect_undef_expr_untrackable idx]
  | scopeAccess s => rfl

theorem stmt_expr_diags_untrackable (s : AnalyzedStatement) :
    stmt_expr_diags EnvironmentTracker.untrackable s = [] := by
  cases s with
  | assignment a =>
    cases a with
    | mk a2 pv es =>
      simp [stmt_expr_diags, lvalue_index_diags_untrackable,
        collect_undef_expr_untrackable]
  | conditions c => simp [stmt_expr_diags, cond_chain_diags_untrackable]
  | foreach f =>
    cases f
    simp [stmt_expr_diags, collect_undef_expr_untrackable]
  | forwardVariablesFrom f =>
    cases f
    simp [stmt_expr_diags, collect_undef_expr_list_untrackable]
  | importStmt i =>
    cases i
    simp [stmt_expr_diags]
  | target t =>
    cases t
    simp [stmt_expr_diags, collect_undef_expr_list_untrackable]
  | template t =>
    cases t
    simp [stmt_expr_diags, collect_undef_expr_list_untrackable]
  | builtinCall b =>
    cases b
    simp [stmt_expr_diags, ident_undef_diags_untrackable,
      collect_undef_expr_list_untrackable]
  | declareArgs d =>
    cases d
    simp [stmt_expr_diags]
  | error sp => simp [stmt_expr_diags]

mutual

theorem undef_block_untrackable (importVars : String → List String)
    (b : AnalyzedBlock) :
    undef_block importVars EnvironmentTracker.untrackable b = [] := by
  rw [undef_block]
  rw [undef_stmts_untrackable importVars (flatten_list b.statements)]
termination_by 2 * block_size b
decreasing_by
  simp_wf
  have h1 := wlist_flatten_list b.statements
  have h3 : block_size b = 1 + stmt_list_size b.statements := by
    cases b
    rfl
  omega

theorem undef_stmts_untrackable (importVars : String → List String)
    (l : List AnalyzedStatement) :
    undef_stmts importVars EnvironmentTracker.untrackable l
      = (EnvironmentTracker.untrackable, []) := by
  match l with
  | [] => rw [undef_stmts]
  | s :: rest =>
    rw [undef_stmts]
    simp only [update_tracker_untrackable importVars s,
      undef_stmts_untrackable importVars rest,
      undef_scopes_untrackable importVars s.subscopes,
      stmt_expr_diags_untrackable s]
    rfl
termination_by 2 * wlist l + 1
decreasing_by
  all_goals rw [show wlist (s :: rest) = wsize s + wlist rest from rfl]
  · unfold wsize
    omega
  · unfold wsize
    omega

theorem undef_scopes_untrackable (importVars : String → List String)
    (scopes : List AnalyzedBlock) :
    undef_scopes importVars EnvironmentTracker.untrackable scopes = [] := by
  match scopes with
  | [] => rw [undef_scopes]
  | sc :: rest =>
    rw [undef_scopes]
    rw [undef_block_untrackable importVars sc,
      undef_scopes_untrackable importVars rest]
    rfl
termination_by 2 * block_list_size scopes + 1
decreasing_by
  all_goals simp only [block_list_size_cons, block_size_eq]
  all_goals omega

end

/-- **C7.** In the undefined-identifier pass, a `forward_variables_from`
statement whose includes argument is not a list of simple string literals
sets the environment tracker to the untrackable state; in that state every
identifier lookup succeeds; and consequently the statements after it in the
same scope contribute no diagnostics at all — the scope's diagnostics are
exactly those of the statement itself. -/
theorem fvf_untrackable_suppresses (importVars : String → List String) :
    (∀ (tracker : EnvironmentTracker) (call : Call) (includes : GExpr)
        (es : List AnalyzedBlock),
      includes.asSimpleStringList = none →
      update_tracker importVars tracker
          (.forwardVariablesFrom (.mk call includes es))
        = EnvironmentTracker.untrackable) ∧
    (∀ name : String,
      EnvironmentTracker.untrackable.may_contain name = true) ∧
    (∀ (tracker : EnvironmentTracker) (call : Call) (includes : GExpr)
        (es : List AnalyzedBlock) (rest : List AnalyzedStatement),
      includes.asSimpleStringList = none →
      (undef_stmts importVars tracker
          (.forwardVariablesFrom (.mk call includes es) :: rest)).2
        = stmt_expr_diags tracker
            (.forwardVariablesFrom (.mk call includes es))
          ++ undef_scopes importVars tracker
              (AnalyzedStatement.subscopes
                (.forwardVariablesFrom (.mk call includes es)))) := by
  refine ⟨?_, fun name => rfl, ?_⟩
  · intro tracker call includes es h
    simp only [update_tracker, h, EnvironmentTracker.set_untrackable]
  · intro tracker call includes es rest h
    have hupd : update_tracker importVars tracker
          (.forwardVariablesFrom (.mk call includes es))
        = EnvironmentTracker.untrackable := by
      simp only [update_tracker, h, EnvironmentTracker.set_untrackable]
    rw [undef_stmts]
    simp only [hupd, undef_stmts_untrackable importVars rest]
    simp

def c7w_includes : GExpr :=
  .primary (.identifier ⟨"invoker_vars", ⟨36, 48⟩⟩) ⟨36, 48⟩

def c7w_call : Call :=
  .mk ⟨"forward_variables_from", ⟨0, 22⟩⟩ [c7w_includes] none ⟨0, 49⟩

def c7w_rest : AnalyzedStatement :=
  .assignment (.mk (.mk (.identifier ⟨"x", ⟨51, 52⟩⟩)
    (.primary (.identifier ⟨"mystery", ⟨55, 62⟩⟩) ⟨55, 62⟩) ⟨51, 62⟩)
    ⟨"x", ⟨51, 52⟩⟩ [])

/-- Witness for C7: `forward_variables_from(invoker, invoker_vars)` — the
includes argument is an identifier, not a simple string list — followed by
an assignment reading an unknown name; the tail contributes no
diagnostics. -/
theorem fvf_untrackable_suppresses_witness :
    GExpr.asSimpleStringList c7w_includes = none ∧
    (undef_stmts (fun _ => []) (.ok ["forward_variables_from"])
        (.forwardVariablesFrom (.mk c7w_call c7w_includes [])
          :: [c7w_rest])).2
      = stmt_expr_diags (.ok ["forward_variables_from"])
          (.forwardVariablesFrom (.mk c7w_call c7w_includes []))
        ++ undef_scopes (fun _ => []) (.ok ["forward_variables_from"])
            (AnalyzedStatement.subscopes
              (.forwardVariablesFrom (.mk c7w_call c7w_includes []))) :=
  ⟨rfl, (fvf_untrackable_suppresses (fun _ => [])).2.2
    (.ok ["forward_variables_from"]) c7w_call c7w_includes [] [c7w_rest] rfl⟩

/-! ### Target references (src/server/providers/references.rs) -/

/-- `str::starts_with` on the character lists of the model: the second
argument is the pattern. -/
def starts_with_chars : List Char → List Char → Bool
  | _, [] => true
  | [], _ :: _ => false
  | c :: cs, d :: ds => c == d && starts_with_chars cs ds

/-- `str::starts_with` lifted to strings. -/
def str_starts_with (s pat : String) : Bool :=
  starts_with_chars s.data pat.data

/-- `AnalyzedLink` (src/analyzer/data.rs): a link to a file or to a target
defined in a BUILD.gn file. -/
inductive AnalyzedLink where
  | file (path : String) (span : Span)
  | targetLink (path : String) (name : String) (span : Span)
deriving DecidableEq

/-- One cached file as seen by `cached_files_for_references`: its path and
its `LinkIndex` (destination path → links found in this file). -/
structure CachedFile where
  path : String
  linkIndex : List (String × List AnalyzedLink)
deriving DecidableEq

/-- The names produced by `AnalyzedBlock::targets` (src/analyzer/data.rs):
flattened `Target` statements whose name expression is a simple string
(`AnalyzedTarget::as_target`). -/
def target_names (root : AnalyzedBlock) : List String :=
  (flatten_list root.statements).filterMap (fun s =>
    match s with
    | .target (.mk _ name _ _) => name.asSimpleString
    | _ => none)

/-- `get_overlapping_targets` (src/server/providers/references.rs): target
names of the current file that are strictly longer than the queried name
and start with it. -/
def get_overlapping_targets (root : AnalyzedBlock) (pre : String) :
    List String :=
  (target_names root).filter (fun name =>
    decide (pre.data.length < name.data.length) &&
      str_starts_with name pre)

/-- `target_references` (src/server/providers/references.rs): for every
cached file, take its links pointing at the current file, keep the `Target`
links whose name does not start with an overlapping longer target name and
does start with the queried name, and emit `(cached file path, span)`. -/
def target_references (cachedFiles : List CachedFile)
    (currentRoot : AnalyzedBlock) (currentPath : String)
    (target_name : String) : List (String × Span) :=
  cachedFiles.flatMap (fun file =>
    match mfind file.linkIndex currentPath with
    | none => []
    | some links =>
      links.filterMap (fun link =>
        match link with
        | .file _ _ => none
        | .targetLink _ name span =>
          if (get_overlapping_targets currentRoot target_name).any
              (fun bad => str_starts_with name bad) then none
          else if str_starts_with name target_name then
            some (file.path, span)
          else none))

/-- The filter as the claim words it: keep the `Target` links whose name
*equals* the queried name (and is not excluded by an overlapping longer
target name). Stated from the spec for comparison with
`target_references`. -/
def target_references_eqname (cachedFiles : List CachedFile)
    (currentRoot : AnalyzedBlock) (currentPath : String)
    (target_name : String) : List (String × Span) :=
  cachedFiles.flatMap (fun file =>
    match mfind file.linkIndex currentPath with
    | none => []
    | some links =>
      links.filterMap (fun link =>
        match link with
        | .file _ _ => none
        | .targetLink _ name span =>
          if (get_overlapping_targets currentRoot target_name).any
              (fun bad => str_starts_with name bad) then none
          else if name = target_name then
            some (file.path, span)
          else none))

def c2_root : AnalyzedBlock :=
  .mk [.target (.mk (.mk ⟨"static_library", ⟨0, 14⟩⟩
      [.primary (.strLit "foo" ⟨15, 20⟩) ⟨15, 20⟩]
      (some (.mk [] ⟨22, 24⟩)) ⟨0, 24⟩)
    (.primary (.strLit "foo" ⟨15, 20⟩) ⟨15, 20⟩)
    [] (.mk [] ⟨22, 24⟩))] ⟨0, 25⟩

def c2_cached : CachedFile :=
  ⟨"other/BUILD.gn",
    [("cur/BUILD.gn", [.targetLink "cur/BUILD.gn" "foo_bar" ⟨10, 17⟩])]⟩

/-- Counterexample to C2 as stated: the current file defines only the
target `foo`, and a cached file links to the `Target` name `foo_bar`.
`foo_bar` does not equal `foo`, so the claim's equality filter drops it,
but the code keeps every link whose name merely *starts with* `foo`
(`foo_tests`-style exclusions apply only to names that are themselves
targets of the current file). -/
theorem c2_counterexample :
    "foo" ∈ target_names c2_root ∧
    target_references [c2_cached] c2_root "cur/BUILD.gn" "foo"
      = [("other/BUILD.gn", ⟨10, 17⟩)] ∧
    target_references_eqname [c2_cached] c2_root "cur/BUILD.gn" "foo"
      = [] := by
  refine ⟨?_, ?_, ?_⟩ <;> decide

/-- **C2** (amended). `(fp, sp)` is returned by `target_references` iff some
cached file with path `fp` holds, in its `LinkIndex` entry for the current
file, a `Target` link with span `sp` whose name starts with the queried
target name and does not start with any strictly longer target name of the
current file that itself starts with the queried name. -/
theorem target_references_mem (cachedFiles : List CachedFile)
    (currentRoot : AnalyzedBlock) (currentPath : String)
    (target_name : String) (fp : String) (sp : Span) :
    (fp, sp) ∈ target_references cachedFiles currentRoot currentPath
        target_name ↔
      ∃ file ∈ cachedFiles, ∃ links,
        mfind file.linkIndex currentPath = some links ∧
        ∃ p name, AnalyzedLink.targetLink p name sp ∈ links ∧
          file.path = fp ∧
          str_starts_with name target_name = true ∧
          ∀ bad ∈ get_overlapping_targets currentRoot target_name,
            str_starts_with name bad = false := by
  unfold target_references
  rw [List.mem_flatMap]
  constructor
  · rintro ⟨file, hfile, hmem⟩
    refine ⟨file, hfile, ?_⟩
    cases hmf : mfind file.linkIndex currentPath with
    | none =>
      rw [hmf] at hmem
      simp at hmem
    | some links =>
      rw [hmf] at hmem
      obtain ⟨link, hlink, hfl⟩ := List.mem_filterMap.mp hmem
      refine ⟨links, rfl, ?_⟩
      cases link with
      | file p s => simp at hfl
      | targetLink p name s =>
        change (if (get_overlapping_targets currentRoot target_name).any
              (fun bad => str_starts_with name bad) then
            (none : Option (String × Span))
          else if str_starts_with name target_name then
            some (file.path, s)
          else none) = some (fp, sp) at hfl
        by_cases hbad : (get_overlapping_targets currentRoot target_name).any
            (fun bad => str_starts_with name bad) = true
        · rw [if_pos hbad] at hfl
          exact absurd hfl (by simp)
        · rw [if_neg hbad] at hfl
          by_cases hst : str_starts_with name target_name = true
          · rw [if_pos hst] at hfl
            have h12 := Option.some.inj hfl
            have h1 : file.path = fp := congrArg Prod.fst h12
            have h2 : s = sp := congrArg Prod.snd h12
            refine ⟨p, name, ?_, h1, hst, ?_⟩
            · rw [← h2]
              exact hlink
            · intro bad hbadmem
              by_contra hsb
              exact hbad (List.any_eq_true.mpr
                ⟨bad, hbadmem, by simpa using hsb⟩)
          · rw [if_neg hst] at hfl
            exact absurd hfl (by simp)
  · rintro ⟨file, hfile, links, hmf, p, name, hlink, hfp, hst, hbadall⟩
    refine ⟨file, hfile, ?_⟩
    rw [hmf]
    refine List.mem_filterMap.mpr ⟨AnalyzedLink.targetLink p name sp, hlink, ?_⟩
    have hbad : (get_overlapping_targets currentRoot target_name).any
        (fun bad => str_starts_with name bad) = false := by
      rw [List.any_eq_false]
      intro bad hbadmem
      simp [hbadall bad hbadmem]
    show (if (get_overlapping_targets currentRoot target_name).any
          (fun bad => str_starts_with name bad) then none
        else if str_starts_with name target_name then
          some (file.path, sp)
        else none) = some (fp, sp)
    rw [hbad]
    rw [show (if (false : Bool) then (none : Option (String × Span))
      else if str_starts_with name target_name then
        some (file.path, sp)
      else none)
      = if str_starts_with name target_name then some (file.path, sp)
        else none from by simp]
    rw [if_pos hst, hfp]

/-- Witness for C2 (amended): the `foo_bar` link of the counterexample file
is produced by `target_references` because its name starts with `foo` and
no overlapping longer target of the current file excludes it. -/
theorem target_references_mem_witness :
    ("other/BUILD.gn", (⟨10, 17⟩ : Span)) ∈
      target_references [c2_cached] c2_root "cur/BUILD.gn" "foo" :=
  (target_references_mem [c2_cached] c2_root "cur/BUILD.gn" "foo"
      "other/BUILD.gn" ⟨10, 17⟩).mpr
    ⟨c2_cached, by decide, [.targetLink "cur/BUILD.gn" "foo_bar" ⟨10, 17⟩],
      by decide, "cur/BUILD.gn", "foo_bar", by decide, by decide, by decide,
      by decide⟩

/-! ### Templates at a position (src/analyzer/data.rs,
`local_templates_at`) -/

/-- First pass of `local_templates_at`: every flattened `Template` statement
whose name is a simple string is inserted (`as_template`). -/
def templates_first_pass :
    List AnalyzedStatement → List (String × Template) → List (String × Template)
  | [], ts => ts
  | s :: rest, ts =>
    match s with
    | .template (.mk call name _ _) =>
      match name.asSimpleString with
      | some n => templates_first_pass rest (minsert ts n ⟨call, n⟩)
      | none => templates_first_pass rest ts
    | _ => templates_first_pass rest ts

mutual

/-- Translation of `AnalyzedBlock::local_templates_at`
(src/analyzer/data.rs): first pass collects the flattened scope's templates;
second pass merges the templates of every subscope whose span strictly
contains `pos`. -/
def local_templates_at (b : AnalyzedBlock) (pos : Nat) :
    List (String × Template) :=
  templates_second_pass pos
    ((flatten_list b.statements).flatMap AnalyzedStatement.subscopes)
    (templates_first_pass (flatten_list b.statements) [])
termination_by 2 * block_size b
decreasing_by
  simp_wf
  have h1 := block_list_size_flat_map_subscopes (flatten_list b.statements)
  have h2 := wlist_flatten_list b.statements
  have h3 := block_size_eq b
  omega

/-- The subscope loop of the second template pass. -/
def templates_second_pass (pos : Nat) :
    List AnalyzedBlock → List (String × Template) → List (String × Template)
  | [], ts => ts
  | sc :: rest, ts =>
    if sc.span.startPos < pos ∧ pos < sc.span.endPos then
      templates_second_pass pos rest (mextend ts (local_templates_at sc pos))
    else
      templates_second_pass pos rest ts
termination_by scopes _ => 2 * block_list_size scopes + 1
decreasing_by
  all_goals simp only [block_list_size_cons, block_size_eq]
  all_goals omega

end

theorem templates_first_pass_nodup :
    ∀ (l : List AnalyzedStatement) (ts : List (String × Template)),
      (mkeys ts).Nodup → (mkeys (templates_first_pass l ts)).Nodup := by
  intro l
  induction l with
  | nil =>
    intro ts h
    simpa [templates_first_pass] using h
  | cons s rest ih =>
    intro ts h
    cases s with
    | template t =>
      obtain ⟨call, name, es, body⟩ := t
      rw [templates_first_pass]
      cases hn : name.asSimpleString with
      | some n => exact ih _ (mkeys_minsert_nodup _ _ _ h)
      | none => exact ih _ h
    | assignment a => exact ih _ h
    | conditions c => exact ih _ h
    | declareArgs d => exact ih _ h
    | foreach f => exact ih _ h
    | forwardVariablesFrom f => exact ih _ h
    | importStmt i => exact ih _ h
    | target t => exact ih _ h
    | builtinCall bc => exact ih _ h
    | error sp => exact ih _ h

theorem templates_second_pass_nodup (pos : Nat) :
    ∀ (scopes : List AnalyzedBlock) (ts : List (String × Template)),
      (mkeys ts).Nodup → (mkeys (templates_second_pass pos scopes ts)).Nodup := by
  intro scopes
  induction scopes with
  | nil =>
    intro ts h
    simpa [templates_second_pass] using h
  | cons sc rest ih =>
    intro ts h
    rw [templates_second_pass]
    split
    · exact ih _ (mkeys_mextend_nodup _ _ h)
    · exact ih _ h

theorem local_templates_at_nodup (b : AnalyzedBlock) (pos : Nat) :
    (mkeys (local_templates_at b pos)).Nodup := by
  rw [local_templates_at]
  exact templates_second_pass_nodup pos _ _
    (templates_first_pass_nodup _ _ (by simp [mkeys]))

/-! ### Environment assembly (src/analyzer/mod.rs, `analyze_files` and
`analyze_at`)

The workspace cache is abstracted by an oracle `exp` mapping each path to
the exports of the analyzed file at that path; the import graph used by
`collect_imports` is `fun p => (exp p).children`. -/

/-- The merged variable and template tables (`Environment`). -/
structure Environment where
  vars : List (String × Variable)
  templates : List (String × Template)

/-- One iteration of the `files.iter().rev()` merge loop: extend both
tables with a file's exports. -/
def env_extend_file (exp : String → FileExports) (env : Environment)
    (p : String) : Environment :=
  ⟨mextend env.vars (exp p).vars, mextend env.templates (exp p).templates⟩

/-- The environment built from a collected file list by iterating it in
reverse and extending (`analyze_files` / `analyze_at` closure bodies). -/
def env_merge_files (exp : String → FileExports) (files : List String) :
    Environment :=
  files.reverse.foldl (env_extend_file exp) ⟨[], []⟩

/-- `WorkspaceAnalyzer::analyze_files` (src/analyzer/mod.rs 194-210):
collect the transitive imports of `path` and merge their exports in reverse
collection order. -/
def analyze_files_env (exp : String → FileExports) (fuel : Nat)
    (path : String) : Option Environment :=
  match collect_imports (fun p => (exp p).children) fuel path ([], []) with
  | none => none
  | some (files, _) => some (env_merge_files exp files)

/-- `WorkspaceAnalyzer::analyze_at` (src/analyzer/mod.rs 212-256): seed the
file list with the starting file, collect the build-config file and then
each import child, split off the starting file, merge the imported files'
exports in reverse, and overlay the starting file's locals at `pos`.
`fileRoot` is the starting file's analyzed root. -/
def analyze_at (exp : String → FileExports) (fileRoot : AnalyzedBlock)
    (buildConfig : String) (fuel : Nat) (file : String) (pos : Nat) :
    Option Environment :=
  match collect_imports (fun p => (exp p).children) fuel buildConfig
      ([file], [file]) with
  | none => none
  | some st1 =>
    match collect_imports_list (fun p => (exp p).children) fuel
        (exp file).children st1 with
    | none => none
    | some (files, _) =>
      match files with
      | [] => none
      | _ :: imported =>
        some ⟨mextend (env_merge_files exp imported).vars
                (local_variables_at fileRoot pos),
              mextend (env_merge_files exp imported).templates
                (local_templates_at fileRoot pos)⟩

/-- `collect_imports` only appends to the file list: the initial files are a
prefix of the result. -/
theorem collect_imports_files_append (children : String → List String) :
    ∀ fuel : Nat,
      (∀ path files visited files2 visited2,
        collect_imports children fuel path (files, visited)
          = some (files2, visited2) →
        ∃ t, files2 = files ++ t)
      ∧ (∀ cs files visited files2 visited2,
        collect_imports_list children fuel cs (files, visited)
          = some (files2, visited2) →
        ∃ t, files2 = files ++ t) := by
  intro fuel
  induction fuel with
  | zero =>
    constructor
    · intro path files visited files2 visited2 h
      exact absurd h (by simp [collect_imports])
    · intro cs files visited files2 visited2 h
      cases cs with
      | nil =>
        simp only [collect_imports_list, Option.some.injEq,
          Prod.mk.injEq] at h
        obtain ⟨rfl, rfl⟩ := h
        exact ⟨[], by simp⟩
      | cons c cs =>
        simp [collect_imports_list, collect_imports] at h
  | succ fuel ih =>
    have hone : ∀ path files visited files2 visited2,
        collect_imports children (fuel + 1) path (files, visited)
          = some (files2, visited2) →
        ∃ t, files2 = files ++ t := by
      intro path files visited files2 visited2 h
      rw [collect_imports] at h
      by_cases hv : path ∈ visited
      · rw [if_pos hv] at h
        obtain ⟨rfl, rfl⟩ := by exact_mod_cast Option.some.inj h
        exact ⟨[], by simp⟩
      · rw [if_neg hv] at h
        obtain ⟨t, ht⟩ := ih.2 (children path) _ _ _ _ h
        exact ⟨path :: t, by rw [ht]; simp⟩
    refine ⟨hone, ?_⟩
    intro cs
    induction cs with
    | nil =>
      intro files visited files2 visited2 h
      simp only [collect_imports_list, Option.some.injEq, Prod.mk.injEq] at h
      obtain ⟨rfl, rfl⟩ := h
      exact ⟨[], by simp⟩
    | cons c cs ihc =>
      intro files visited files2 visited2 h
      rw [collect_imports_list] at h
      cases hcall : collect_imports children (fuel + 1) c (files, visited) with
      | none =>
        rw [hcall] at h
        exact absurd h (by simp)
      | some st2 =>
        rw [hcall] at h
        obtain ⟨files3, visited3⟩ := st2
        obtain ⟨t1, ht1⟩ := hone c _ _ _ _ hcall
        obtain ⟨t2, ht2⟩ := ihc _ _ _ _ h
        exact ⟨t1 ++ t2, by rw [ht2, ht1]; simp⟩

theorem env_merge_files_cons (exp : String → FileExports) (p : String)
    (rest : List String) :
    env_merge_files exp (p :: rest)
      = env_extend_file exp (env_merge_files exp rest) p := by
  unfold env_merge_files
  rw [List.reverse_cons, List.foldl_append]
  rfl

/-- First-defined lookup over a list of files in collection order: the
earliest file for which `f` is defined wins. -/
def lookup_first (f : String → Option α) : List String → Option α
  | [] => none
  | p :: rest => oor (f p) (lookup_first f rest)

/-- Looking a name up in the reverse-merged environment returns the export
of the FIRST file in collection order that defines it (last write wins). -/
theorem env_merge_files_vars_mfind (exp : String → FileExports)
    (files : List String) (k : String)
    (hnd : ∀ p, (mkeys (exp p).vars).Nodup) :
    mfind (env_merge_files exp files).vars k
      = lookup_first (fun p => mfind (exp p).vars k) files := by
  induction files with
  | nil => rfl
  | cons p rest ih =>
    rw [env_merge_files_cons]
    show mfind (mextend (env_merge_files exp rest).vars (exp p).vars) k = _
    rw [mfind_mextend, mfind_reverse_of_nodup _ _ (hnd p), ih]
    rfl

theorem env_merge_files_templates_mfind (exp : String → FileExports)
    (files : List String) (k : String)
    (hndt : ∀ p, (mkeys (exp p).templates).Nodup) :
    mfind (env_merge_files exp files).templates k
      = lookup_first (fun p => mfind (exp p).templates k) files := by
  induction files with
  | nil => rfl
  | cons p rest ih =>
    rw [env_merge_files_cons]
    show mfind (mextend (env_merge_files exp rest).templates
      (exp p).templates) k = _
    rw [mfind_mextend, mfind_reverse_of_nodup _ _ (hndt p), ih]
    rfl

/-- **C3.** `analyze_at` succeeds whenever the import collection does; the
file list is the starting file followed by the visited imports (build-config
first, then the starting file's import children, transitively); and every
lookup in the result prefers the starting file's locals at `pos`, falling
back to the exports of the earliest-collected visited file that defines the
name (reverse-order extension means last write wins). -/
theorem analyze_at_env (exp : String → FileExports)
    (fileRoot : AnalyzedBlock) (buildConfig file : String)
    (fuel pos : Nat) (st1 : ImportState) (files visited2 : List String)
    (hnd : ∀ p, (mkeys (exp p).vars).Nodup)
    (hndt : ∀ p, (mkeys (exp p).templates).Nodup)
    (h1 : collect_imports (fun p => (exp p).children) fuel buildConfig
        ([file], [file]) = some st1)
    (h2 : collect_imports_list (fun p => (exp p).children) fuel
        (exp file).children st1 = some (files, visited2)) :
    ∃ imported, files = file :: imported ∧
      ∃ env, analyze_at exp fileRoot buildConfig fuel file pos = some env ∧
        (∀ name, mfind env.vars name =
          oor (mfind (local_variables_at fileRoot pos) name)
              (lookup_first (fun p => mfind (exp p).vars name) imported)) ∧
        (∀ name, mfind env.templates name =
          oor (mfind (local_templates_at fileRoot pos) name)
              (lookup_first (fun p => mfind (exp p).templates name)
                imported)) := by
  obtain ⟨stf, stv⟩ := st1
  obtain ⟨t1, ht1⟩ :=
    (collect_imports_files_append (fun p => (exp p).children) fuel).1
      _ _ _ _ _ h1
  obtain ⟨t2, ht2⟩ :=
    (collect_imports_files_append (fun p => (exp p).children) fuel).2
      _ _ _ _ _ h2
  subst ht1
  have hfiles : files = file :: (t1 ++ t2) := by
    rw [ht2]
    simp
  refine ⟨t1 ++ t2, hfiles, ?_⟩
  refine ⟨⟨mextend (env_merge_files exp (t1 ++ t2)).vars
        (local_variables_at fileRoot pos),
      mextend (env_merge_files exp (t1 ++ t2)).templates
        (local_templates_at fileRoot pos)⟩, ?_, ?_, ?_⟩
  · unfold analyze_at
    rw [h1]
    dsimp only
    rw [h2]
    dsimp only
    rw [hfiles]
  · intro name
    show mfind (mextend (env_merge_files exp (t1 ++ t2)).vars
      (local_variables_at fileRoot pos)) name = _
    rw [mfind_mextend,
      mfind_reverse_of_nodup _ _ (local_variables_at_nodup fileRoot pos),
      env_merge_files_vars_mfind exp _ _ hnd]
  · intro name
    show mfind (mextend (env_merge_files exp (t1 ++ t2)).templates
      (local_templates_at fileRoot pos)) name = _
    rw [mfind_mextend,
      mfind_reverse_of_nodup _ _ (local_templates_at_nodup fileRoot pos),
      env_merge_files_templates_mfind exp _ _ hndt]

def c3_exp : String → FileExports :=
  fun p =>
    if p = "bc/BUILDCONFIG.gn" then
      ⟨[("ev", ⟨"ev", [], false⟩)], [], [], []⟩
    else FileExports.empty

def c3_root : AnalyzedBlock :=
  .mk [.assignment (.mk
    (.mk (.identifier ⟨"ev", ⟨0, 2⟩⟩)
      (.primary (.integer ⟨5, 6⟩) ⟨5, 6⟩) ⟨0, 6⟩)
    ⟨"ev", ⟨0, 2⟩⟩ [])] ⟨0, 7⟩

/-- Witness for C3: a workspace whose build-config exports `ev`, a starting
file with no imports; the theorem applies with the concrete collection
results. -/
theorem analyze_at_env_witness :
    ∃ imported,
      (["cur/BUILD.gn", "bc/BUILDCONFIG.gn"] : List String)
        = "cur/BUILD.gn" :: imported ∧
      ∃ env, analyze_at c3_exp c3_root "bc/BUILDCONFIG.gn" 3 "cur/BUILD.gn"
          100 = some env ∧
        (∀ name, mfind env.vars name =
          oor (mfind (local_variables_at c3_root 100) name)
              (lookup_first (fun p => mfind (c3_exp p).vars name)
                imported)) ∧
        (∀ name, mfind env.templates name =
          oor (mfind (local_templates_at c3_root 100) name)
              (lookup_first (fun p => mfind (c3_exp p).templates name)
                imported)) :=
  analyze_at_env c3_exp c3_root "bc/BUILDCONFIG.gn" "cur/BUILD.gn" 3 100
    (["cur/BUILD.gn", "bc/BUILDCONFIG.gn"],
      ["bc/BUILDCONFIG.gn", "cur/BUILD.gn"])
    ["cur/BUILD.gn", "bc/BUILDCONFIG.gn"]
    ["bc/BUILDCONFIG.gn", "cur/BUILD.gn"]
    (by
      intro p
      by_cases h : p = "bc/BUILDCONFIG.gn" <;>
        simp [c3_exp, h, mkeys, FileExports.empty])
    (by
      intro p
      by_cases h : p = "bc/BUILDCONFIG.gn" <;>
        simp [c3_exp, h, mkeys, FileExports.empty])
    (by
      rw [collect_imports]
      rw [if_neg (by decide)]
      rw [show (c3_exp "bc/BUILDCONFIG.gn").children = [] from by
        simp [c3_exp]]
      rw [collect_imports_list]
      rfl)
    (by
      rw [show (c3_exp "cur/BUILD.gn").children = [] from by
        simp [c3_exp, FileExports.empty]]
      rw [collect_imports_list])

/-! ### Import insertion (src/server/imports.rs `create_import_edit`, and
the identical src/server/providers/code_action.rs `compute_import_edit`)

The document text is modelled as a list of characters. For the claim's
scenario — a file consisting of one block of import statements — the
analyzed statements are spec-modelled from the parser contract: the text
`render ps` parses to one import statement per path, with spans at the
character offsets of the rendered lines. -/

/-- `get_import` (src/server/imports.rs): the unresolved name of an import
statement. -/
def get_import : AnalyzedStatement → Option String
  | .importStmt (.mk _ name _) => some name
  | _ => none

/-- The `find` closure of `create_import_edit`: an import whose name is
lexicographically greater than the new import. -/
def import_lt (imp : String) (s : AnalyzedStatement) : Bool :=
  match get_import s with
  | some name => decide (imp < name)
  | none => false

/-- The first top-level import block: skip non-imports, then take
imports. -/
def first_import_block (statements : List AnalyzedStatement) :
    List AnalyzedStatement :=
  (statements.dropWhile (fun s => (get_import s).isNone)).takeWhile
    (fun s => (get_import s).isSome)

/-- `create_import_edit` (src/server/imports.rs): the insertion offset and
the prefix/suffix around `import("<imp>")`. -/
def create_import_edit (statements : List AnalyzedStatement)
    (dataLen : Nat) (imp : String) : Nat × String × String :=
  if (first_import_block statements).isEmpty then
    match statements.head? with
    | some first => (first.span.startPos, "", "\n\n")
    | none => (dataLen, "", "\n\n")
  else
    match (first_import_block statements).find? (import_lt imp) with
    | some next => (next.span.startPos, "", "\n")
    | none =>
      match (first_import_block statements).getLast? with
      | some last => (last.span.endPos, "\n", "")
      | none => (dataLen, "", "\n\n")

/-- The text of one import statement. -/
def stmt_text (p : String) : String := "import(\x22" ++ p ++ "\x22)"

def stmt_len (p : String) : Nat := (stmt_text p).data.length

/-- The import block: one line per path. -/
def renderL : List String → List Char
  | [] => []
  | p :: rest => (stmt_text p).data ++ '\n' :: renderL rest

/-- The whole file: the import block followed by a blank line (empty file
when there are no imports). -/
def render (ps : List String) : List Char :=
  match ps with
  | [] => []
  | _ :: _ => renderL ps ++ ['\n']

/-- spec-modelled: the analyzed statement the parser produces for the
line importing `p` starting at character offset `off`. -/
def scenario_import (p : String) (off : Nat) : AnalyzedStatement :=
  .importStmt (.mk (.mk ⟨"import", ⟨off, off⟩⟩ [] none
    ⟨off, off + stmt_len p⟩) p p)

/-- spec-modelled: the statements of a file that is one import block,
with spans at the rendered offsets. -/
def scenario_stmts : List String → Nat → List AnalyzedStatement
  | [], _ => []
  | p :: rest, off =>
    scenario_import p off :: scenario_stmts rest (off + stmt_len p + 1)

/-- Applying a text edit: insert `ins` at `off`. -/
def apply_edit (data : List Char) (off : Nat) (ins : List Char) :
    List Char :=
  data.take off ++ ins ++ data.drop off

/-- One full insertion round on the scenario state: compute the edit on the
analyzed statements of `render ps` and apply it to the text. -/
def insert_import (ps : List String) (imp : String) : List Char :=
  apply_edit (render ps)
    (create_import_edit (scenario_stmts ps 0) (render ps).length imp).1
    ((create_import_edit (scenario_stmts ps 0) (render ps).length imp).2.1.data
      ++ (stmt_text imp).data
      ++ (create_import_edit (scenario_stmts ps 0)
            (render ps).length imp).2.2.data)

/-- Sorted insertion: insert before the first strictly greater path. -/
def insert_sorted (imp : String) : List String → List String
  | [] => [imp]
  | p :: rest => if imp < p then imp :: p :: rest else p :: insert_sorted imp rest

/-- The scenario state after inserting every path of `ks` in turn. -/
def insert_all (ks : List String) : List String :=
  ks.foldl (fun ps k => insert_sorted k ps) []

theorem renderL_append (a b : List String) :
    renderL (a ++ b) = renderL a ++ renderL b := by
  induction a with
  | nil => simp [renderL]
  | cons p rest ih =>
    rw [List.cons_append]
    rw [show renderL (p :: (rest ++ b))
      = (stmt_text p).data ++ '\n' :: renderL (rest ++ b) from rfl]
    rw [ih]
    rw [show renderL (p :: rest)
      = (stmt_text p).data ++ '\n' :: renderL rest from rfl]
    simp [List.append_assoc]

theorem renderL_length_cons (p : String) (rest : List String) :
    (renderL (p :: rest)).length = stmt_len p + 1 + (renderL rest).length := by
  simp only [renderL, List.length_append, List.length_cons, stmt_len]
  omega

theorem takeWhile_scenario (ps : List String) :
    ∀ off, (scenario_stmts ps off).takeWhile
        (fun s => (get_import s).isSome) = scenario_stmts ps off := by
  induction ps with
  | nil => intro off; rfl
  | cons p rest ih =>
    intro off
    rw [scenario_stmts, List.takeWhile_cons]
    rw [if_pos (by simp [get_import, scenario_import])]
    rw [ih]

theorem fib_scenario (ps : List String) (off : Nat) :
    first_import_block (scenario_stmts ps off) = scenario_stmts ps off := by
  cases ps with
  | nil => rfl
  | cons p rest =>
    unfold first_import_block
    rw [scenario_stmts, List.dropWhile_cons]
    rw [if_neg (by simp [get_import, scenario_import])]
    rw [← scenario_stmts]
    exact takeWhile_scenario (p :: rest) off

theorem scenario_isEmpty (ps : List String) (off : Nat) (h : ps ≠ []) :
    (scenario_stmts ps off).isEmpty = false := by
  cases ps with
  | nil => exact absurd rfl h
  | cons p rest => rfl

theorem find_none_scenario (imp : String) :
    ∀ (ps : List String) (off : Nat), (∀ p ∈ ps, ¬ imp < p) →
      (scenario_stmts ps off).find? (import_lt imp) = none := by
  intro ps
  induction ps with
  | nil => intro off _; rfl
  | cons p rest ih =>
    intro off h
    rw [scenario_stmts]
    rw [List.find?_cons_of_neg _ (by
      simp [import_lt, get_import, scenario_import,
        h p (List.mem_cons_self _ _)])]
    exact ih _ (fun x hx => h x (List.mem_cons_of_mem _ hx))

theorem find_some_scenario (imp q : String) (suf : List String) :
    ∀ (pre : List String) (off : Nat), (∀ p ∈ pre, ¬ imp < p) → imp < q →
      (scenario_stmts (pre ++ q :: suf) off).find? (import_lt imp)
        = some (scenario_import q (off + (renderL pre).length)) := by
  intro pre
  induction pre with
  | nil =>
    intro off _ hq
    rw [List.nil_append, scenario_stmts]
    rw [List.find?_cons_of_pos _ (by
      simp [import_lt, get_import, scenario_import, hq])]
    simp [renderL]
  | cons p pre' ih =>
    intro off h hq
    rw [List.cons_append, scenario_stmts]
    rw [List.find?_cons_of_neg _ (by
      simp [import_lt, get_import, scenario_import,
        h p (List.mem_cons_self _ _)])]
    rw [ih _ (fun x hx => h x (List.mem_cons_of_mem _ hx)) hq]
    have harith : off + stmt_len p + 1 + (renderL pre').length
        = off + (renderL (p :: pre')).length := by
      rw [renderL_length_cons]
      omega
    rw [harith]

theorem getLast_cons_ne (a : AnalyzedStatement) (l : List AnalyzedStatement)
    (h : l ≠ []) : (a :: l).getLast? = l.getLast? := by
  cases l with
  | nil => exact absurd rfl h
  | cons b l2 => exact List.getLast?_cons_cons

theorem scenario_ne_nil (ps : List String) (off : Nat) (h : ps ≠ []) :
    scenario_stmts ps off ≠ [] := by
  cases ps with
  | nil => exact absurd rfl h
  | cons p rest => simp [scenario_stmts]

theorem scenario_getLast (lastp : String) :
    ∀ (init : List String) (off : Nat),
      (scenario_stmts (init ++ [lastp]) off).getLast?
        = some (scenario_import lastp (off + (renderL init).length)) := by
  intro init
  induction init with
  | nil =>
    intro off
    simp [scenario_stmts, renderL]
  | cons p init' ih =>
    intro off
    rw [List.cons_append, scenario_stmts]
    rw [getLast_cons_ne _ _ (scenario_ne_nil _ _ (by simp))]
    rw [ih]
    have harith : off + stmt_len p + 1 + (renderL init').length
        = off + (renderL (p :: init')).length := by
      rw [renderL_length_cons]
      omega
    rw [harith]

theorem find_split (imp : String) :
    ∀ ps : List String,
      (∀ p ∈ ps, ¬ imp < p) ∨
      ∃ pre q suf, ps = pre ++ q :: suf ∧
        (∀ p ∈ pre, ¬ imp < p) ∧ imp < q := by
  intro ps
  induction ps with
  | nil => exact Or.inl (by simp)
  | cons p rest ih =>
    by_cases hp : imp < p
    · exact Or.inr ⟨[], p, rest, by simp, by simp, hp⟩
    · rcases ih with hall | ⟨pre, q, suf, rfl, hpre, hq⟩
      · refine Or.inl ?_
        intro x hx
        rcases List.mem_cons.mp hx with rfl | hx
        · exact hp
        · exact hall x hx
      · refine Or.inr ⟨p :: pre, q, suf, by simp, ?_, hq⟩
        intro x hx
        rcases List.mem_cons.mp hx with rfl | hx
        · exact hp
        · exact hpre x hx

theorem insert_sorted_all (imp : String) :
    ∀ ps : List String, (∀ p ∈ ps, ¬ imp < p) →
      insert_sorted imp ps = ps ++ [imp] := by
  intro ps
  induction ps with
  | nil => intro _; rfl
  | cons p rest ih =>
    intro h
    rw [insert_sorted, if_neg (h p (List.mem_cons_self _ _))]
    rw [ih (fun x hx => h x (List.mem_cons_of_mem _ hx))]
    rfl

theorem insert_sorted_split (imp q : String) (suf : List String) :
    ∀ pre : List String, (∀ p ∈ pre, ¬ imp < p) → imp < q →
      insert_sorted imp (pre ++ q :: suf) = pre ++ imp :: q :: suf := by
  intro pre
  induction pre with
  | nil =>
    intro _ hq
    rw [List.nil_append, insert_sorted, if_pos hq]
    rfl
  | cons p pre' ih =>
    intro h hq
    rw [List.cons_append, insert_sorted,
      if_neg (h p (List.mem_cons_self _ _))]
    rw [ih (fun x hx => h x (List.mem_cons_of_mem _ hx)) hq]
    rfl

theorem cie_empty (dataLen : Nat) (imp : String) :
    create_import_edit (scenario_stmts [] 0) dataLen imp
      = (dataLen, "", "\n\n") := rfl

theorem cie_some (pre : List String) (q : String) (suf : List String)
    (dataLen : Nat) (imp : String)
    (hpre : ∀ p ∈ pre, ¬ imp < p) (hq : imp < q) :
    create_import_edit (scenario_stmts (pre ++ q :: suf) 0) dataLen imp
      = ((renderL pre).length, "", "\n") := by
  unfold create_import_edit
  rw [fib_scenario]
  rw [if_neg (by
    rw [scenario_isEmpty _ _ (by simp)]
    simp)]
  rw [find_some_scenario imp q suf pre 0 hpre hq]
  simp [scenario_import, AnalyzedStatement.span, Call.span]

theorem cie_none (init : List String) (lastp : String)
    (dataLen : Nat) (imp : String)
    (hall : ∀ p ∈ init ++ [lastp], ¬ imp < p) :
    create_import_edit (scenario_stmts (init ++ [lastp]) 0) dataLen imp
      = ((renderL init).length + stmt_len lastp, "\n", "") := by
  unfold create_import_edit
  rw [fib_scenario]
  rw [if_neg (by
    rw [scenario_isEmpty _ _ (by simp)]
    simp)]
  rw [find_none_scenario imp _ 0 hall]
  rw [scenario_getLast lastp init 0]
  simp [scenario_import, AnalyzedStatement.span, Call.span]

theorem render_cons (ps : List String) (h : ps ≠ []) :
    render ps = renderL ps ++ ['\n'] := by
  cases ps with
  | nil => exact absurd rfl h
  | cons p rest => rfl

/-- The per-round equation: the edit computed by `create_import_edit` turns
the rendered file of `ps` into the rendered file of the sorted insertion of
`imp` into `ps`. -/
theorem insert_import_eq (ps : List String) (imp : String) :
    insert_import ps imp = render (insert_sorted imp ps) := by
  rcases find_split imp ps with hall | ⟨pre, q, suf, rfl, hpre, hq⟩
  · rcases List.eq_nil_or_concat ps with rfl | ⟨init, lastp, rfl⟩
    · rw [insert_import, cie_empty]
      rw [show render ([] : List String) = ([] : List Char) from rfl]
      rw [show insert_sorted imp [] = [imp] from rfl]
      rw [render_cons [imp] (by simp)]
      rw [show ("" : String).data = ([] : List Char) from rfl,
        show ("\n\n" : String).data = ['\n', '\n'] from rfl]
      rw [show renderL [imp] = (stmt_text imp).data ++ ['\n'] from rfl]
      simp [apply_edit]
    · simp only [List.concat_eq_append] at hall ⊢
      rw [insert_import, cie_none init lastp _ imp hall,
        insert_sorted_all imp _ hall]
      rw [render_cons _ (by simp), render_cons _ (by simp)]
      rw [apply_edit]
      rw [show (("\n" : String).data ++ (stmt_text imp).data
        ++ ("" : String).data)
        = '\n' :: (stmt_text imp).data from by simp]
      rw [renderL_append, renderL_append]
      rw [show renderL [lastp] = (stmt_text lastp).data ++ ['\n'] from rfl]
      rw [show renderL [imp] = (stmt_text imp).data ++ ['\n'] from rfl]
      rw [show (renderL init ++ ((stmt_text lastp).data ++ ['\n'])) ++ ['\n']
        = (renderL init ++ (stmt_text lastp).data)
          ++ ['\n', '\n'] from by simp]
      rw [show (renderL init).length + stmt_len lastp
        = (renderL init ++ (stmt_text lastp).data).length from by
          simp [stmt_len]]
      rw [List.take_left, List.drop_left]
      simp [renderL_append, renderL]
  · rw [insert_import, cie_some pre q suf _ imp hpre hq,
      insert_sorted_split imp q suf pre hpre hq]
    rw [render_cons _ (by simp), render_cons _ (by simp)]
    rw [apply_edit]
    rw [show (("" : String).data ++ (stmt_text imp).data
      ++ ("\n" : String).data)
      = (stmt_text imp).data ++ ['\n'] from by simp]
    rw [renderL_append, renderL_append]
    rw [show renderL (q :: suf)
      = (stmt_text q).data ++ '\n' :: renderL suf from rfl]
    rw [show renderL (imp :: q :: suf)
      = (stmt_text imp).data
        ++ '\n' :: ((stmt_text q).data ++ '\n' :: renderL suf) from rfl]
    rw [show (renderL pre
        ++ ((stmt_text q).data ++ '\n' :: renderL suf)) ++ ['\n']
      = renderL pre
        ++ (((stmt_text q).data ++ '\n' :: renderL suf) ++ ['\n'])
      from by simp]
    rw [List.take_left, List.drop_left]
    simp

theorem chain_insert_sorted (imp : String) :
    ∀ ps : List String, List.Chain' (· < ·) ps → imp ∉ ps →
      List.Chain' (· < ·) (insert_sorted imp ps) := by
  intro ps
  induction ps with
  | nil =>
    intro _ _
    simp [insert_sorted]
  | cons p rest ih =>
    intro hch hmem
    rw [insert_sorted]
    by_cases hlt : imp < p
    · rw [if_pos hlt]
      rw [List.chain'_cons]
      exact ⟨hlt, hch⟩
    · rw [if_neg hlt]
      have hne : imp ≠ p := fun h => hmem (h ▸ List.mem_cons_self _ _)
      have hpi : p < imp := by
        rcases lt_trichotomy imp p with h | h | h
        · exact absurd h hlt
        · exact absurd h hne
        · exact h
      have hmem2 : imp ∉ rest := fun h => hmem (List.mem_cons_of_mem _ h)
      cases rest with
      | nil =>
        rw [show insert_sorted imp [] = [imp] from rfl]
        rw [List.chain'_cons]
        exact ⟨hpi, by simp⟩
      | cons r rest2 =>
        have hpr : p < r := (List.chain'_cons.mp hch).1
        have hch2 : List.Chain' (· < ·) (r :: rest2) :=
          (List.chain'_cons.mp hch).2
        have hrec := ih hch2 hmem2
        rw [insert_sorted] at hrec ⊢
        by_cases h2 : imp < r
        · rw [if_pos h2] at hrec ⊢
          rw [List.chain'_cons]
          exact ⟨hpi, hrec⟩
        · rw [if_neg h2] at hrec ⊢
          rw [List.chain'_cons]
          exact ⟨hpr, hrec⟩

theorem perm_insert_sorted (imp : String) :
    ∀ ps : List String, (insert_sorted imp ps).Perm (imp :: ps) := by
  intro ps
  induction ps with
  | nil => simp [insert_sorted]
  | cons p rest ih =>
    rw [insert_sorted]
    by_cases hlt : imp < p
    · rw [if_pos hlt]
    · rw [if_neg hlt]
      exact (ih.cons p).trans (List.Perm.swap imp p rest)

theorem insert_fold_inv :
    ∀ (ks acc : List String), List.Chain' (· < ·) acc →
      (∀ k ∈ ks, k ∉ acc) → ks.Nodup →
      List.Chain' (· < ·)
        (ks.foldl (fun ps k => insert_sorted k ps) acc) ∧
      (ks.foldl (fun ps k => insert_sorted k ps) acc).Perm (acc ++ ks) := by
  intro ks
  induction ks with
  | nil =>
    intro acc hch _ _
    exact ⟨hch, by simp⟩
  | cons k rest ih =>
    intro acc hch hnotin hnd
    rw [List.foldl_cons]
    have hkacc : k ∉ acc := hnotin k (List.mem_cons_self _ _)
    have hch2 := chain_insert_sorted k acc hch hkacc
    have hperm := perm_insert_sorted k acc
    have hnotin2 : ∀ x ∈ rest, x ∉ insert_sorted k acc := by
      intro x hx hmem
      rcases List.mem_cons.mp (hperm.mem_iff.mp hmem) with rfl | hxa
      · exact (List.nodup_cons.mp hnd).1 hx
      · exact hnotin x (List.mem_cons_of_mem _ hx) hxa
    obtain ⟨hc, hp⟩ :=
      ih (insert_sorted k acc) hch2 hnotin2 (List.nodup_cons.mp hnd).2
    exact ⟨hc,
      hp.trans ((hperm.append_right rest).trans List.perm_middle.symm)⟩

/-- **C6.** Each round of the import-insertion edit turns the rendered
block of `ps` into the rendered block of the sorted insertion of the
new path; sorted insertion preserves strict lexicographic sortedness and
adds exactly the new path; hence after inserting K distinct paths into an
initially empty file, the text is the render — one contiguous block of
imports in lexicographic path order, each followed by a single newline,
with a blank line after the block — of a sorted permutation of the K
paths. -/
theorem import_insertion_sorted :
    (∀ (ps : List String) (imp : String),
      insert_import ps imp = render (insert_sorted imp ps)) ∧
    (∀ (ps : List String) (imp : String),
      List.Chain' (· < ·) ps → imp ∉ ps →
      List.Chain' (· < ·) (insert_sorted imp ps) ∧
      (insert_sorted imp ps).Perm (imp :: ps)) ∧
    (∀ ks : List String, ks.Nodup →
      List.Chain' (· < ·) (insert_all ks) ∧ (insert_all ks).Perm ks) :=
  ⟨insert_import_eq,
   fun ps imp hch hmem =>
     ⟨chain_insert_sorted imp ps hch hmem, perm_insert_sorted imp ps⟩,
   fun ks hnd => by
     unfold insert_all
     obtain ⟨hc, hp⟩ := insert_fold_inv ks [] (by simp) (by simp) hnd
     exact ⟨hc, by simpa using hp⟩⟩

/-- Witness for C6: inserting `c` into the sorted file `[a, b]` keeps it
sorted, and inserting `b` then `a` into an empty file yields the sorted
state `[a, b]`. -/
theorem import_insertion_sorted_witness :
    (["b", "a"] : List String).Nodup ∧
    (List.Chain' (· < ·) (insert_sorted "c" ["a", "b"]) ∧
      (insert_sorted "c" ["a", "b"]).Perm ["c", "a", "b"]) ∧
    (List.Chain' (· < ·) (insert_all ["b", "a"]) ∧
      (insert_all ["b", "a"]).Perm ["b", "a"]) :=
  ⟨by decide,
   import_insertion_sorted.2.1 ["a", "b"] "c"
     (by
       rw [List.chain'_cons]
       refine ⟨?_, by simp⟩
       rw [String.lt_iff_toList_lt]
       decide)
     (by decide),
   import_insertion_sorted.2.2 ["b", "a"] (by decide)⟩

end GN
